import Mathlib

/-!
Verification of the markup-preserving translation pipeline
(ufal/document-translation).

We shallowly embed the Python sources over `List Char` surfaces:

* `Segment` mirrors `document_translation/segmentedtext.py`: each segment is a
  plain object, so equality is object identity.  We model identity by an
  explicit `id` field; two occurrences of the same surface string in a text
  get distinct ids, mirroring distinct Python objects.
* the lexer `SegmentedText.segments_regex` and `SegmentFactory` / segment
  constructors (which can raise `ValueError`, the `ErrMalformedTag` kind);
* `Alignment` from `markuptranslator/alignment.py` (the segment-identity
  version: a `src -> set<tgt>` multimap plus the `aligned_tgts` Counter);
* the view projections, `recover_alignment`, `rightmost/leftmost_alignment_by_src`,
  `TagReinserter.reinsert_segments`, and the walking phase of
  `TagReinserter.reinsert_tags` from `translate_markup.py`.
-/

namespace DocTrans

/-- Python's `\s` (whitespace) class for the `re` module on `str` patterns:
ASCII whitespace, the C1 separators, and the Unicode space characters. -/
def pyWs (c : Char) : Bool :=
  c = ' ' || c = '\t' || c = '\n' || c = '\r' || c = '\x0b' || c = '\x0c' ||
  c = '\x1c' || c = '\x1d' || c = '\x1e' || c = '\x1f' || c = '\x85' ||
  c = '\xa0' || c = ' ' ||
  (0x2000 ≤ c.toNat && c.toNat ≤ 0x200a) ||
  c = ' ' || c = ' ' || c = ' ' || c = ' ' || c = '　'

/-- Python's `\w` (word character) class, restricted to ASCII (the repository's
tag names are ASCII; Python's class is larger on non-ASCII letters, which none
of our theorems depend on). -/
def isWordChar (c : Char) : Bool :=
  c.isAlphanum || c = '_'

/-- The dynamic class of a segment.  `tag` is `TagSegment` (placeholder),
`pairedTag` is `PairedTagSegment`; both carry the tag name extracted by
`TagSegment.__init__`, and the paired tag carries its `opening_tag` flag. -/
inductive SegKind where
  | text : SegKind
  | whitespace : SegKind
  | tag : List Char → SegKind
  | pairedTag : List Char → Bool → SegKind
  | sentenceSep : SegKind
deriving DecidableEq

/-- A segment: identity (`id`, modelling Python object identity for the
`document_translation.segmentedtext.Segment(object)` classes), its dynamic
class, and its exact surface string. -/
structure Segment where
  id : Nat
  kind : SegKind
  surface : List Char
deriving DecidableEq

/-- `isinstance(s, TextSegment)` -/
def Segment.isText (s : Segment) : Bool :=
  match s.kind with
  | .text => true
  | _ => false

/-- `isinstance(s, WhitespaceSegment)` -/
def Segment.isWs (s : Segment) : Bool :=
  match s.kind with
  | .whitespace => true
  | _ => false

/-- `isinstance(s, SentenceSeparator)` -/
def Segment.isSep (s : Segment) : Bool :=
  match s.kind with
  | .sentenceSep => true
  | _ => false

/-- `isinstance(s, TagSegment)` — note that `PairedTagSegment` is a subclass
of `TagSegment`, so this is true for both. -/
def Segment.isTagLike (s : Segment) : Bool :=
  match s.kind with
  | .tag _ => true
  | .pairedTag _ _ => true
  | _ => false

/-- `isinstance(s, PairedTagSegment)` -/
def Segment.isPaired (s : Segment) : Bool :=
  match s.kind with
  | .pairedTag _ _ => true
  | _ => false

/-- `str(SegmentedText)`: concatenation of the surface strings. -/
def strOf (l : List Segment) : List Char :=
  (l.map Segment.surface).flatten

/-!  ### `SegmentedText.split_sentences`

`split_sentences` yields `self[i:j]` for every `SentenceSeparator` at index
`j` (where `i` is one past the previous separator) and finally `self[i:]`.
That is: split the list at separators, dropping them, keeping empty pieces. -/

def splitSentences : List Segment → List (List Segment)
  | [] => [[]]
  | s :: rest =>
    if s.isSep then [] :: splitSentences rest
    else
      match splitSentences rest with
      | [] => [[s]]
      | p :: ps => (s :: p) :: ps

theorem splitSentences_ne_nil (l : List Segment) : splitSentences l ≠ [] := by
  induction l with
  | nil => simp [splitSentences]
  | cons s rest ih =>
    simp only [splitSentences]
    by_cases h : s.isSep
    · simp [h]
    · simp only [h, if_false]
      cases hr : splitSentences rest with
      | nil => simp
      | cons p ps => simp

theorem splitSentences_length (l : List Segment) :
    (splitSentences l).length = l.countP Segment.isSep + 1 := by
  induction l with
  | nil => simp [splitSentences]
  | cons s rest ih =>
    simp only [splitSentences, List.countP_cons]
    by_cases h : s.isSep
    · simp [h, ih]
    · simp only [h, if_false]
      cases hr : splitSentences rest with
      | nil => exact absurd hr (splitSentences_ne_nil rest)
      | cons p ps =>
        simp only [List.length_cons]
        rw [hr] at ih
        simp at ih
        simp [ih]

theorem splitSentences_no_sep (l : List Segment) :
    ∀ p ∈ splitSentences l, ∀ s ∈ p, ¬ s.isSep = true := by
  induction l with
  | nil => simp [splitSentences]
  | cons s rest ih =>
    simp only [splitSentences]
    by_cases h : s.isSep
    · simp only [h, if_true]
      intro p hp
      rcases List.mem_cons.mp hp with h1 | h1
      · subst h1; simp
      · exact ih p h1
    · simp only [h, if_false]
      cases hr : splitSentences rest with
      | nil => exact absurd hr (splitSentences_ne_nil rest)
      | cons q qs =>
        intro p hp
        rcases List.mem_cons.mp hp with h1 | h1
        · subst h1
          intro x hx
          rcases List.mem_cons.mp hx with h2 | h2
          · subst h2; simp [h]
          · exact ih q (by rw [hr]; exact List.mem_cons_self q qs) x h2
        · exact ih p (by rw [hr]; exact List.mem_cons_of_mem q h1)

theorem splitSentences_flatten (l : List Segment) :
    (splitSentences l).flatten = l.filter (fun s => ! s.isSep) := by
  induction l with
  | nil => simp [splitSentences]
  | cons s rest ih =>
    simp only [splitSentences]
    by_cases h : s.isSep
    · simp [h, ih]
    · simp only [h, if_false]
      cases hr : splitSentences rest with
      | nil => exact absurd hr (splitSentences_ne_nil rest)
      | cons q qs =>
        rw [hr] at ih
        simp only [List.flatten_cons, List.filter_cons]
        simp [h, ← ih]

/-- C10: `split_sentences` on a text with `k` SENTENCE_SEP segments yields
exactly `k+1` pieces; no piece contains a separator; the concatenation of the
pieces is the text with the separators removed; and the empty SegmentedText
yields exactly one empty piece. -/
theorem c10_split_sentences (t : List Segment) :
    (splitSentences t).length = t.countP Segment.isSep + 1 ∧
    (∀ p ∈ splitSentences t, ∀ s ∈ p, ¬ s.isSep = true) ∧
    (splitSentences t).flatten = t.filter (fun s => ! s.isSep) ∧
    splitSentences ([] : List Segment) = [[]] :=
  ⟨splitSentences_length t, splitSentences_no_sep t, splitSentences_flatten t, rfl⟩

/-!  ### `Alignment` (markuptranslator/alignment.py, segment-identity version)

The class keeps a multimap `_src_to_tgt : defaultdict[Segment, Set[Segment]]`
and a Counter `aligned_tgts` over target segments.  We keep the set of pairs
as a duplicate-free list (Python set membership; iteration order is irrelevant
to every observation we prove) and the Counter as an integer-valued function
(`Counter[t]` defaults to 0, `+=`/`-=` update it, and may leave it
inconsistent with the pair set — faithfully modelled, see C8). -/

inductive AlignErr where
  | absentAlignment : AlignErr
deriving DecidableEq

structure Alignment where
  pairs : List (Segment × Segment)
  counts : Segment → Int

def Alignment.empty : Alignment := ⟨[], fun _ => 0⟩

def bump (f : Segment → Int) (t : Segment) (d : Int) : Segment → Int :=
  fun x => if x = t then f x + d else f x

/-- `Alignment.add`: `self._src_to_tgt[src].add(tgt)` (set add: no effect when
the pair is present) and `self.aligned_tgts[tgt] += 1` (unconditional). -/
def Alignment.add (A : Alignment) (s t : Segment) : Alignment :=
  { pairs := if (s, t) ∈ A.pairs then A.pairs else A.pairs ++ [(s, t)]
    counts := bump A.counts t 1 }

/-- `Alignment.remove`: `self._src_to_tgt[src].remove(tgt)` raises `KeyError`
(the `ErrAbsentAlignment` kind) when the pair is absent; on success the
Counter entry is decremented. -/
def Alignment.remove (A : Alignment) (s t : Segment) : Except AlignErr Alignment :=
  if (s, t) ∈ A.pairs then
    .ok { pairs := A.pairs.erase (s, t), counts := bump A.counts t (-1) }
  else .error .absentAlignment

/-- `Alignment.get(src)`: the target set of `src` (empty when absent). -/
def Alignment.get (A : Alignment) (s : Segment) : List Segment :=
  (A.pairs.filter (fun p => p.1 = s)).map Prod.snd

/-- `Alignment.is_src_aligned`: `bool(self.get(src))`. -/
def Alignment.isSrcAligned (A : Alignment) (s : Segment) : Bool :=
  ! (A.get s).isEmpty

/-- `Alignment.is_tgt_aligned`: `tgt in self.aligned_tgts and
self.aligned_tgts[tgt] > 0`; a Counter key can only be positive once
inserted, so this is `aligned_tgts[tgt] > 0` with default 0. -/
def Alignment.isTgtAligned (A : Alignment) (t : Segment) : Bool :=
  decide (0 < A.counts t)

/-- `Alignment.compose`: for every `(src, tgt)` pair of `self` and every
`other_tgt` in `other.get(tgt)`, `composed_alignment.add(src, other_tgt)`,
starting from an empty Alignment. -/
def Alignment.compose (A B : Alignment) : Alignment :=
  A.pairs.foldl
    (fun acc p => (B.get p.2).foldl (fun acc2 c => acc2.add p.1 c) acc)
    Alignment.empty

theorem mem_add_pairs (A : Alignment) (s t : Segment) (p : Segment × Segment) :
    p ∈ (A.add s t).pairs ↔ p ∈ A.pairs ∨ p = (s, t) := by
  simp only [Alignment.add]
  by_cases h : (s, t) ∈ A.pairs
  · simp only [h, if_true]
    constructor
    · intro hp; exact Or.inl hp
    · rintro (hp | hp)
      · exact hp
      · subst hp; exact h
  · simp [h]

theorem add_pairs_nodup (A : Alignment) (s t : Segment) (h : A.pairs.Nodup) :
    (A.add s t).pairs.Nodup := by
  simp only [Alignment.add]
  by_cases hm : (s, t) ∈ A.pairs
  · simpa [hm]
  · simpa [hm] using List.Nodup.append h (List.nodup_singleton _) (by simpa using hm)

theorem mem_get (A : Alignment) (s t : Segment) :
    t ∈ A.get s ↔ (s, t) ∈ A.pairs := by
  simp only [Alignment.get, List.mem_map, List.mem_filter]
  constructor
  · rintro ⟨p, ⟨hp, he⟩, hsnd⟩
    have : p = (s, t) := by
      cases p with
      | mk a b =>
        simp only [decide_eq_true_eq] at he
        simp_all
    subst this; exact hp
  · intro hp
    exact ⟨(s, t), ⟨hp, by simp⟩, rfl⟩

/-- Pairs accumulated by the inner fold of `compose`. -/
theorem foldl_add_pairs_mem (l : List Segment) (a : Segment) (acc : Alignment)
    (p : Segment × Segment) :
    p ∈ (l.foldl (fun acc2 c => acc2.add a c) acc).pairs ↔
      p ∈ acc.pairs ∨ ∃ c ∈ l, p = (a, c) := by
  induction l generalizing acc with
  | nil => simp
  | cons c cs ih =>
    simp only [List.foldl_cons]
    rw [ih]
    rw [mem_add_pairs]
    constructor
    · rintro ((h | h) | ⟨d, hd, he⟩)
      · exact Or.inl h
      · exact Or.inr ⟨c, by simp, h⟩
      · exact Or.inr ⟨d, by simp [hd], he⟩
    · rintro (h | ⟨d, hd, he⟩)
      · exact Or.inl (Or.inl h)
      · rcases List.mem_cons.mp hd with h1 | h1
        · subst h1; exact Or.inl (Or.inr he)
        · exact Or.inr ⟨d, h1, he⟩

theorem compose_go_mem (l : List (Segment × Segment)) (B : Alignment)
    (acc : Alignment) (p : Segment × Segment) :
    p ∈ (l.foldl (fun acc q => (B.get q.2).foldl (fun acc2 c => acc2.add q.1 c) acc) acc).pairs ↔
      p ∈ acc.pairs ∨ ∃ q ∈ l, (q.2, p.2) ∈ B.pairs ∧ p.1 = q.1 := by
  induction l generalizing acc with
  | nil => simp
  | cons q qs ih =>
    simp only [List.foldl_cons]
    rw [ih]
    rw [foldl_add_pairs_mem]
    constructor
    · rintro ((h | ⟨c, hc, he⟩) | ⟨r, hr, hm, he⟩)
      · exact Or.inl h
      · refine Or.inr ⟨q, by simp, ?_, by rw [he]⟩
        rw [he]
        exact (mem_get B q.2 c).mp hc
      · exact Or.inr ⟨r, List.mem_cons_of_mem q hr, hm, he⟩
    · rintro (h | ⟨r, hr, hm, he⟩)
      · exact Or.inl (Or.inl h)
      · rcases List.mem_cons.mp hr with h1 | h1
        · subst h1
          refine Or.inl (Or.inr ⟨p.2, (mem_get B r.2 p.2).mpr hm, ?_⟩)
          simp [Prod.ext_iff, he]
        · exact Or.inr ⟨r, h1, hm, he⟩

/-- Membership characterisation of `compose`: exactly the relational
composition of the two pair sets. -/
theorem compose_mem (A B : Alignment) (p : Segment × Segment) :
    p ∈ (A.compose B).pairs ↔
      ∃ b, (p.1, b) ∈ A.pairs ∧ (b, p.2) ∈ B.pairs := by
  unfold Alignment.compose
  rw [compose_go_mem]
  simp only [Alignment.empty, List.not_mem_nil, false_or]
  constructor
  · rintro ⟨q, hq, hm, he⟩
    refine ⟨q.2, ?_, hm⟩
    rw [he]
    exact hq
  · rintro ⟨b, h1, h2⟩
    exact ⟨(p.1, b), h1, h2, rfl⟩

theorem foldl_add_pairs_nodup (l : List Segment) (a : Segment) (acc : Alignment)
    (h : acc.pairs.Nodup) :
    (l.foldl (fun acc2 c => acc2.add a c) acc).pairs.Nodup := by
  induction l generalizing acc with
  | nil => simpa
  | cons c cs ih => exact ih _ (add_pairs_nodup _ _ _ h)

theorem compose_nodup (A B : Alignment) : (A.compose B).pairs.Nodup := by
  unfold Alignment.compose
  have : ∀ (l : List (Segment × Segment)) (acc : Alignment), acc.pairs.Nodup →
      (l.foldl (fun acc q => (B.get q.2).foldl (fun acc2 c => acc2.add q.1 c) acc) acc).pairs.Nodup := by
    intro l
    induction l with
    | nil => intro acc h; simpa
    | cons q qs ih =>
      intro acc h
      exact ih _ (foldl_add_pairs_nodup _ _ _ h)
  exact this A.pairs Alignment.empty (by simp [Alignment.empty])

/-- C3: `compose` emits a pair `(a, c)` exactly when `(a, b)` is in the left
alignment and `(b, c)` in the right for some middle segment `b`; duplicates
collapse (the emitted pair list is duplicate-free); and composition is
associative: `(A ∘ B) ∘ C` contains exactly the same pairs as `A ∘ (B ∘ C)`. -/
theorem c3_compose_assoc (A B C : Alignment) :
    (∀ p : Segment × Segment,
        p ∈ (A.compose B).pairs ↔ ∃ b, (p.1, b) ∈ A.pairs ∧ (b, p.2) ∈ B.pairs) ∧
    (A.compose B).pairs.Nodup ∧
    (∀ p : Segment × Segment,
        p ∈ ((A.compose B).compose C).pairs ↔ p ∈ (A.compose (B.compose C)).pairs) := by
  refine ⟨compose_mem A B, compose_nodup A B, ?_⟩
  intro p
  rw [compose_mem, compose_mem]
  constructor
  · rintro ⟨b, hab, hbc⟩
    rcases (compose_mem A B (p.1, b)).mp hab with ⟨m, h1, h2⟩
    exact ⟨m, h1, (compose_mem B C (m, p.2)).mpr ⟨b, h2, hbc⟩⟩
  · rintro ⟨b, hab, hbc⟩
    rcases (compose_mem B C (b, p.2)).mp hbc with ⟨m, h1, h2⟩
    exact ⟨m, (compose_mem A B (p.1, m)).mpr ⟨b, hab, h1⟩, h2⟩

/-- C2: segments are alignment keys by identity, not by surface string.
Adding a pair `(s1, t1)` leaves `get` of any other segment occurrence `s2`
(same surface, different identity) unchanged, and leaves `is_tgt_aligned` of
any other target occurrence `t2` (same surface as `t1`, different identity)
unchanged. -/
theorem c2_identity_keys (A : Alignment) (s1 t1 s2 t2 : Segment)
    (hs : s2.surface = s1.surface) (hs' : s2 ≠ s1)
    (ht : t2.surface = t1.surface) (ht' : t2 ≠ t1) :
    (A.add s1 t1).get s2 = A.get s2 ∧
    (A.add s1 t1).isTgtAligned t2 = A.isTgtAligned t2 := by
  constructor
  · simp only [Alignment.get, Alignment.add]
    by_cases h : (s1, t1) ∈ A.pairs
    · simp [h]
    · simp only [h, if_false, List.filter_append]
      have : List.filter (fun p => decide (p.1 = s2)) [(s1, t1)] = [] := by
        simp [Ne.symm hs']
      rw [this, List.append_nil]
  · simp only [Alignment.isTgtAligned, Alignment.add, bump]
    simp only [if_neg ht']

/-- Witness for C2 at concrete segments: two occurrences of the surface
string "a" with distinct identities. -/
theorem c2_identity_keys_witness :
    (Alignment.empty.add ⟨0, .text, ['a']⟩ ⟨2, .text, ['b']⟩).get ⟨1, .text, ['a']⟩ =
      Alignment.empty.get ⟨1, .text, ['a']⟩ ∧
    (Alignment.empty.add ⟨0, .text, ['a']⟩ ⟨2, .text, ['b']⟩).isTgtAligned ⟨3, .text, ['b']⟩ =
      Alignment.empty.isTgtAligned ⟨3, .text, ['b']⟩ := by
  exact c2_identity_keys Alignment.empty ⟨0, .text, ['a']⟩ ⟨2, .text, ['b']⟩
    ⟨1, .text, ['a']⟩ ⟨3, .text, ['b']⟩ rfl (by decide) rfl (by decide)

/-- C8 (code bug): `add` of an already-present pair is a no-op on the pair
set but increments the `aligned_tgts` Counter, so after
`add(s, t); add(s, t); remove(s, t)` the pair set is empty yet
`is_tgt_aligned(t)` still reports `True` — the code diverges from the
spec's "addition of an already-present pair is a no-op".  The second part of
the claim holds: `remove` of an absent pair fails (`ErrAbsentAlignment`). -/
theorem c8_add_remove_bug :
    (∃ A : Alignment,
      ((Alignment.empty.add ⟨0, .text, ['a']⟩ ⟨1, .text, ['b']⟩).add
          ⟨0, .text, ['a']⟩ ⟨1, .text, ['b']⟩).remove ⟨0, .text, ['a']⟩ ⟨1, .text, ['b']⟩ =
        .ok A ∧
      A.pairs = [] ∧
      A.isTgtAligned ⟨1, .text, ['b']⟩ = true) ∧
    Alignment.empty.remove ⟨0, .text, ['a']⟩ ⟨1, .text, ['b']⟩ = .error .absentAlignment := by
  constructor
  · refine ⟨_, rfl, ?_, ?_⟩
    · simp [Alignment.empty, Alignment.add, Alignment.remove]
    · decide
  · rfl

/-!  ### View projections (document_translation/markuptranslator.py)

`translator_view` and `aligner_view` walk the text, appending to a fresh
SegmentedText and recording a back-alignment.  Newly created segments
(`WhitespaceSegment(" ")`) are fresh Python objects; we model the fresh
identity with an explicit id counter threaded through the walk. -/

/-- The `.tag` attribute: present on `TagSegment` and its subclass
`PairedTagSegment`. -/
def tagNameAttr (s : Segment) : Option (List Char) :=
  match s.kind with
  | .tag nm => some nm
  | .pairedTag nm _ => some nm
  | _ => none

/-- A fresh `WhitespaceSegment(" ")`. -/
def freshSpace (n : Nat) : Segment := ⟨n, .whitespace, [' ']⟩

def translatorViewGo : List Segment → List Segment → Alignment → Nat →
    List Segment × Alignment × Nat
  | [], acc, al, n => (acc, al, n)
  | seg :: rest, acc, al, n =>
    match tagNameAttr seg with
    | some nm =>
      if nm = ['x'] ∨ nm = ['l', 'b'] then
        translatorViewGo rest (acc ++ [freshSpace n]) al (n + 1)
      else
        translatorViewGo rest acc al n
    | none =>
      if seg.isWs then
        if seg.surface = ['\n'] ∨ seg.surface = [' '] then
          translatorViewGo rest (acc ++ [seg]) (al.add seg seg) n
        else
          translatorViewGo rest (acc ++ [freshSpace n]) (al.add seg (freshSpace n)) (n + 1)
      else
        translatorViewGo rest (acc ++ [seg]) (al.add seg seg) n

/-- `MarkupTranslator.translator_view`, with the fresh-identity counter. -/
def translatorView (l : List Segment) (n : Nat) : List Segment × Alignment × Nat :=
  translatorViewGo l [] Alignment.empty n

/-- The filter of `MarkupTranslator.aligner_view`: keep words, sentence
separators and newlines. -/
def avKeep (s : Segment) : Bool :=
  s.isText || s.isSep || s.surface = ['\n']

def alignerViewGo : List Segment → List Segment → Alignment →
    List Segment × Alignment
  | [], acc, al => (acc, al)
  | seg :: rest, acc, al =>
    if avKeep seg then
      alignerViewGo rest (acc ++ [seg]) (al.add seg seg)
    else
      alignerViewGo rest acc al

/-- `MarkupTranslator.aligner_view`. -/
def alignerView (l : List Segment) : List Segment × Alignment :=
  alignerViewGo l [] Alignment.empty

/-- Segments that `translator_view` leaves untouched: no `.tag` attribute,
and whitespace only as a single newline or a single space. -/
def tvGood (s : Segment) : Prop :=
  tagNameAttr s = none ∧ (s.isWs = true → s.surface = ['\n'] ∨ s.surface = [' '])

theorem freshSpace_tvGood (n : Nat) : tvGood (freshSpace n) := by
  refine ⟨rfl, fun _ => Or.inr rfl⟩

theorem translatorViewGo_good (l : List Segment) :
    ∀ (acc : List Segment) (al : Alignment) (n : Nat),
      (∀ s ∈ acc, tvGood s) →
      ∀ s ∈ (translatorViewGo l acc al n).1, tvGood s := by
  induction l with
  | nil => intro acc al n hacc; simpa [translatorViewGo] using hacc
  | cons seg rest ih =>
    intro acc al n hacc
    simp only [translatorViewGo]
    cases htag : tagNameAttr seg with
    | some nm =>
      by_cases hx : nm = ['x'] ∨ nm = ['l', 'b']
      · simp only [hx, if_true]
        refine ih _ _ _ ?_
        intro s hs
        rcases List.mem_append.mp hs with h | h
        · exact hacc s h
        · simp only [List.mem_singleton] at h
          subst h; exact freshSpace_tvGood n
      · simp only [hx, if_false]
        exact ih _ _ _ hacc
    | none =>
      by_cases hws : seg.isWs = true
      · simp only [hws, if_true]
        by_cases hsurf : seg.surface = ['\n'] ∨ seg.surface = [' ']
        · simp only [hsurf, if_true]
          refine ih _ _ _ ?_
          intro s hs
          rcases List.mem_append.mp hs with h | h
          · exact hacc s h
          · simp only [List.mem_singleton] at h
            subst h; exact ⟨htag, fun _ => hsurf⟩
        · simp only [hsurf, if_false]
          refine ih _ _ _ ?_
          intro s hs
          rcases List.mem_append.mp hs with h | h
          · exact hacc s h
          · simp only [List.mem_singleton] at h
            subst h; exact freshSpace_tvGood n
      · simp only [hws, if_false]
        refine ih _ _ _ ?_
        intro s hs
        rcases List.mem_append.mp hs with h | h
        · exact hacc s h
        · simp only [List.mem_singleton] at h
          subst h
          exact ⟨htag, fun hw => absurd hw hws⟩

theorem translatorViewGo_fixed (l : List Segment) :
    ∀ (acc : List Segment) (al : Alignment) (n : Nat),
      (∀ s ∈ l, tvGood s) →
      (translatorViewGo l acc al n).1 = acc ++ l := by
  induction l with
  | nil => intro acc al n _; simp [translatorViewGo]
  | cons seg rest ih =>
    intro acc al n hl
    have hseg : tvGood seg := hl seg (List.mem_cons_self _ _)
    simp only [translatorViewGo, hseg.1]
    by_cases hws : seg.isWs = true
    · simp only [hws, if_true, hseg.2 hws, if_true]
      rw [ih _ _ _ (fun s hs => hl s (List.mem_cons_of_mem _ hs))]
      simp
    · simp only [hws, Bool.false_eq_true, if_false]
      rw [ih _ _ _ (fun s hs => hl s (List.mem_cons_of_mem _ hs))]
      simp

theorem alignerViewGo_keep (l : List Segment) :
    ∀ (acc : List Segment) (al : Alignment),
      (∀ s ∈ acc, avKeep s = true) →
      ∀ s ∈ (alignerViewGo l acc al).1, avKeep s = true := by
  induction l with
  | nil => intro acc al hacc; simpa [alignerViewGo] using hacc
  | cons seg rest ih =>
    intro acc al hacc
    simp only [alignerViewGo]
    by_cases hk : avKeep seg = true
    · simp only [hk, if_true]
      refine ih _ _ ?_
      intro s hs
      rcases List.mem_append.mp hs with h | h
      · exact hacc s h
      · simp only [List.mem_singleton] at h
        subst h; exact hk
    · simp only [hk, if_false]
      exact ih _ _ hacc

theorem alignerViewGo_fixed (l : List Segment) :
    ∀ (acc : List Segment) (al : Alignment),
      (∀ s ∈ l, avKeep s = true) →
      (alignerViewGo l acc al).1 = acc ++ l := by
  induction l with
  | nil => intro acc al _; simp [alignerViewGo]
  | cons seg rest ih =>
    intro acc al hl
    simp only [alignerViewGo, hl seg (List.mem_cons_self _ _), if_true]
    rw [ih _ _ (fun s hs => hl s (List.mem_cons_of_mem _ hs))]
    simp

/-- C9: the views are idempotent on their own output.  Applying
`translator_view` to the SegmentedText component of `translator_view(sg)`
returns that SegmentedText unchanged, for any fresh-id counters `n`, `m`;
likewise for `aligner_view`. -/
theorem c9_view_idempotent (l : List Segment) (n m : Nat) :
    (translatorView (translatorView l n).1 m).1 = (translatorView l n).1 ∧
    (alignerView (alignerView l).1).1 = (alignerView l).1 := by
  constructor
  · have hgood : ∀ s ∈ (translatorView l n).1, tvGood s :=
      translatorViewGo_good l [] Alignment.empty n (by simp)
    have := translatorViewGo_fixed (translatorView l n).1 [] Alignment.empty m hgood
    simpa [translatorView] using this
  · have hgood : ∀ s ∈ (alignerView l).1, avKeep s = true :=
      alignerViewGo_keep l [] Alignment.empty (by simp)
    have := alignerViewGo_fixed (alignerView l).1 [] Alignment.empty hgood
    simpa [alignerView] using this

/-!  ### The lexer: `SegmentedText.segments_regex`

`re.compile(r'(</?(g|x|bx|ex|lb|mrk).*?>|\n|[^\S\n]+|[^<\s]+|[^>\s]+)')`,
used through `findall`, which scans left to right and at each position takes
the first alternative that matches.  The tag alternative is deterministic:
the six tag names start with pairwise distinct characters, `/?` is decided by
the next character, and the lazy `.*?>` stops at the first `>` (`.` does not
match a newline).  Greedy `+` runs are maximal `takeWhile` runs. -/

/-- Match a literal character sequence at the start of the input. -/
def matchLit : List Char → List Char → Option (List Char × List Char)
  | [], cs => some ([], cs)
  | _ :: _, [] => none
  | a :: lit, c :: cs =>
    if a = c then
      match matchLit lit cs with
      | some (t, r) => some (a :: t, r)
      | none => none
    else none

/-- Regex alternation of two matchers (first match wins; all our name
alternatives begin with pairwise distinct characters, so at most one can
match and the engine never needs to retry a later alternative). -/
def altM (m1 m2 : List Char → Option (List Char × List Char)) :
    List Char → Option (List Char × List Char) :=
  fun cs =>
    match m1 cs with
    | some p => some p
    | none => m2 cs

/-- The name alternation `(g|x|bx|ex|lb|mrk)`, in regex order. -/
def matchNameAll : List Char → Option (List Char × List Char) :=
  altM (matchLit ['g']) (altM (matchLit ['x']) (altM (matchLit ['b', 'x'])
    (altM (matchLit ['e', 'x']) (altM (matchLit ['l', 'b']) (matchLit ['m', 'r', 'k'])))))

/-- The name `g` alone (`SegmentFactory.paired_tag_pattern`). -/
def matchNameG : List Char → Option (List Char × List Char) :=
  matchLit ['g']

/-- The names `(x|bx|ex|lb|mrk)` (`SegmentFactory.tag_pattern`). -/
def matchNamePh : List Char → Option (List Char × List Char) :=
  altM (matchLit ['x']) (altM (matchLit ['b', 'x'])
    (altM (matchLit ['e', 'x']) (altM (matchLit ['l', 'b']) (matchLit ['m', 'r', 'k']))))

/-- The lazy `.*?>`: consume up to and including the first `>`; fail on a
newline or the end of the input (`.` does not match `\n`). -/
def lazyClose : List Char → Option (List Char × List Char)
  | [] => none
  | c :: r =>
    if c = '>' then some ([c], r)
    else if c = '\n' then none
    else
      match lazyClose r with
      | some (t, rest) => some (c :: t, rest)
      | none => none

/-- The optional slash `/?` right after `<` (greedy, decided by one char). -/
def slashSplit : List Char → List Char × List Char
  | [] => ([], [])
  | d :: r => if d = '/' then (['/'], r) else ([], d :: r)

/-- `</?NAME.*?>` anchored at the start, for a given name alternation. -/
def matchTagWith (nameM : List Char → Option (List Char × List Char)) :
    List Char → Option (List Char × List Char)
  | [] => none
  | c :: rest =>
    if c = '<' then
      match nameM (slashSplit rest).2 with
      | some (nm, rest3) =>
        match lazyClose rest3 with
        | some (cl, rest4) => some (c :: ((slashSplit rest).1 ++ nm ++ cl), rest4)
        | none => none
      | none => none
    else none

/-- One lexer step: the first alternative of `segments_regex` that matches at
the current position. -/
def lexOne : List Char → Option (List Char × List Char)
  | [] => none
  | c :: rest =>
    match matchTagWith matchNameAll (c :: rest) with
    | some p => some p
    | none =>
      if c = '\n' then some (['\n'], rest)
      else if pyWs c then
        some ((c :: rest).takeWhile (fun d => pyWs d && d ≠ '\n'),
              (c :: rest).dropWhile (fun d => pyWs d && d ≠ '\n'))
      else if c ≠ '<' then
        some ((c :: rest).takeWhile (fun d => !pyWs d && d ≠ '<'),
              (c :: rest).dropWhile (fun d => !pyWs d && d ≠ '<'))
      else
        some ((c :: rest).takeWhile (fun d => !pyWs d && d ≠ '>'),
              (c :: rest).dropWhile (fun d => !pyWs d && d ≠ '>'))

def lexGo : Nat → List Char → List (List Char)
  | 0, _ => []
  | _, [] => []
  | fuel + 1, c :: rest =>
    match lexOne (c :: rest) with
    | some (t, r) => t :: lexGo fuel r
    | none => []

/-- `segments_regex.findall`: the token list of the input. -/
def lexAll (s : List Char) : List (List Char) :=
  lexGo s.length s

theorem matchLit_spec (lit : List Char) :
    ∀ cs t r, matchLit lit cs = some (t, r) → t = lit ∧ t ++ r = cs := by
  induction lit with
  | nil =>
    intro cs t r h
    simp only [matchLit, Option.some.injEq, Prod.mk.injEq] at h
    rcases h with ⟨h1, h2⟩
    subst h1; subst h2; simp
  | cons a lit ih =>
    intro cs t r h
    cases cs with
    | nil => simp [matchLit] at h
    | cons c cs' =>
      simp only [matchLit] at h
      by_cases hac : a = c
      · rw [if_pos hac] at h
        cases hrec : matchLit lit cs' with
        | none => rw [hrec] at h; simp at h
        | some p =>
          rw [hrec] at h
          cases p with
          | mk t' r' =>
            simp only [Option.some.injEq, Prod.mk.injEq] at h
            rcases h with ⟨h1, h2⟩
            rcases ih cs' t' r' hrec with ⟨h3, h4⟩
            subst h2
            constructor
            · rw [← h1, h3]
            · rw [← h1]
              simp [hac, h4]
      · rw [if_neg hac] at h; simp at h

theorem altM_spec (m1 m2 : List Char → Option (List Char × List Char))
    (h1 : ∀ cs t r, m1 cs = some (t, r) → t ≠ [] ∧ t ++ r = cs)
    (h2 : ∀ cs t r, m2 cs = some (t, r) → t ≠ [] ∧ t ++ r = cs) :
    ∀ cs t r, altM m1 m2 cs = some (t, r) → t ≠ [] ∧ t ++ r = cs := by
  intro cs t r h
  simp only [altM] at h
  cases hm : m1 cs with
  | some p => rw [hm] at h; cases p; cases h; exact h1 cs t r hm
  | none => rw [hm] at h; exact h2 cs t r h

theorem matchLit_ne_spec (lit : List Char) (hne : lit ≠ []) :
    ∀ cs t r, matchLit lit cs = some (t, r) → t ≠ [] ∧ t ++ r = cs := by
  intro cs t r h
  rcases matchLit_spec lit cs t r h with ⟨h1, h2⟩
  exact ⟨by rw [h1]; exact hne, h2⟩

theorem matchNameAll_spec :
    ∀ cs t r, matchNameAll cs = some (t, r) → t ≠ [] ∧ t ++ r = cs := by
  unfold matchNameAll
  refine altM_spec _ _ (matchLit_ne_spec _ (by simp)) ?_
  refine altM_spec _ _ (matchLit_ne_spec _ (by simp)) ?_
  refine altM_spec _ _ (matchLit_ne_spec _ (by simp)) ?_
  refine altM_spec _ _ (matchLit_ne_spec _ (by simp)) ?_
  exact altM_spec _ _ (matchLit_ne_spec _ (by simp)) (matchLit_ne_spec _ (by simp))

theorem matchNamePh_spec :
    ∀ cs t r, matchNamePh cs = some (t, r) → t ≠ [] ∧ t ++ r = cs := by
  unfold matchNamePh
  refine altM_spec _ _ (matchLit_ne_spec _ (by simp)) ?_
  refine altM_spec _ _ (matchLit_ne_spec _ (by simp)) ?_
  refine altM_spec _ _ (matchLit_ne_spec _ (by simp)) ?_
  exact altM_spec _ _ (matchLit_ne_spec _ (by simp)) (matchLit_ne_spec _ (by simp))

theorem matchNameG_spec :
    ∀ cs t r, matchNameG cs = some (t, r) → t ≠ [] ∧ t ++ r = cs := by
  unfold matchNameG
  exact matchLit_ne_spec _ (by simp)

theorem lazyClose_spec (cs : List Char) :
    ∀ t r, lazyClose cs = some (t, r) → t ≠ [] ∧ t ++ r = cs := by
  induction cs with
  | nil => intro t r h; simp [lazyClose] at h
  | cons c rest ih =>
    intro t r h
    simp only [lazyClose] at h
    by_cases hgt : c = '>'
    · rw [if_pos hgt] at h
      simp only [Option.some.injEq, Prod.mk.injEq] at h
      rcases h with ⟨h1, h2⟩
      subst h1; subst h2; simp
    · rw [if_neg hgt] at h
      by_cases hnl : c = '\n'
      · rw [if_pos hnl] at h; simp at h
      · rw [if_neg hnl] at h
        cases hrec : lazyClose rest with
        | none => rw [hrec] at h; simp at h
        | some p =>
          rw [hrec] at h
          cases p with
          | mk t' r' =>
            simp only [Option.some.injEq, Prod.mk.injEq] at h
            rcases h with ⟨h1, h2⟩
            rcases ih t' r' hrec with ⟨h3, h4⟩
            subst h2
            constructor
            · rw [← h1]; simp
            · rw [← h1]; simp [h4]

theorem slashSplit_spec (cs : List Char) :
    (slashSplit cs).1 ++ (slashSplit cs).2 = cs := by
  cases cs with
  | nil => simp [slashSplit]
  | cons d r =>
    simp only [slashSplit]
    by_cases hd : d = '/'
    · rw [if_pos hd]; simp [hd]
    · rw [if_neg hd]; simp

theorem matchTagWith_spec (nameM : List Char → Option (List Char × List Char))
    (hname : ∀ cs t r, nameM cs = some (t, r) → t ≠ [] ∧ t ++ r = cs)
    (cs : List Char) :
    ∀ t r, matchTagWith nameM cs = some (t, r) → t ≠ [] ∧ t ++ r = cs := by
  intro t r h
  cases cs with
  | nil => simp [matchTagWith] at h
  | cons c rest =>
    simp only [matchTagWith] at h
    by_cases hc : c = '<'
    · rw [if_pos hc] at h
      cases hnm : nameM (slashSplit rest).2 with
      | none => rw [hnm] at h; simp at h
      | some p =>
        rw [hnm] at h
        cases p with
        | mk nm rest3 =>
          simp only at h
          cases hlc : lazyClose rest3 with
          | none => rw [hlc] at h; simp at h
          | some q =>
            rw [hlc] at h
            cases q with
            | mk cl rest4 =>
              simp only [Option.some.injEq, Prod.mk.injEq] at h
              rcases h with ⟨h1, h2⟩
              rcases hname _ nm rest3 hnm with ⟨_, hn2⟩
              rcases lazyClose_spec rest3 cl rest4 hlc with ⟨_, hl2⟩
              subst h2
              constructor
              · rw [← h1]; simp
              · rw [← h1]
                simp only [List.cons_append, List.append_assoc]
                rw [hl2, hn2, slashSplit_spec]
    · rw [if_neg hc] at h; simp at h

theorem lexOne_total (c : Char) (rest : List Char) :
    ∃ t r, lexOne (c :: rest) = some (t, r) ∧ t ≠ [] ∧ t ++ r = c :: rest := by
  simp only [lexOne]
  cases htag : matchTagWith matchNameAll (c :: rest) with
  | some p =>
    cases p with
    | mk t r =>
      rcases matchTagWith_spec matchNameAll matchNameAll_spec (c :: rest) t r htag with ⟨h1, h2⟩
      exact ⟨t, r, rfl, h1, h2⟩
  | none =>
    by_cases hn : c = '\n'
    · rw [if_pos hn]
      exact ⟨['\n'], rest, rfl, by simp, by rw [hn]; simp⟩
    · rw [if_neg hn]
      by_cases hws : pyWs c = true
      · rw [if_pos hws]
        refine ⟨_, _, rfl, ?_, List.takeWhile_append_dropWhile _ _⟩
        rw [List.takeWhile_cons]
        rw [if_pos (by simp [hws, hn])]
        simp
      · rw [if_neg hws]
        by_cases hlt : c = '<'
        · rw [if_neg (by simp [hlt])]
          refine ⟨_, _, rfl, ?_, List.takeWhile_append_dropWhile _ _⟩
          rw [List.takeWhile_cons]
          rw [if_pos (by rw [hlt]; decide)]
          simp
        · rw [if_pos hlt]
          refine ⟨_, _, rfl, ?_, List.takeWhile_append_dropWhile _ _⟩
          rw [List.takeWhile_cons]
          rw [if_pos (by simp [hws, hlt])]
          simp

theorem lexGo_flatten (fuel : Nat) :
    ∀ cs : List Char, cs.length ≤ fuel → (lexGo fuel cs).flatten = cs := by
  induction fuel with
  | zero =>
    intro cs h
    rw [Nat.le_zero] at h
    rw [List.length_eq_zero] at h
    subst h
    simp [lexGo]
  | succ fuel ih =>
    intro cs h
    cases cs with
    | nil => simp [lexGo]
    | cons c rest =>
      rcases lexOne_total c rest with ⟨t, r, heq, hne, happ⟩
      simp only [lexGo, heq]
      have hlen : r.length ≤ fuel := by
        have := congrArg List.length happ
        simp only [List.length_append, List.length_cons] at this
        have ht : 1 ≤ t.length := by
          cases t with
          | nil => exact absurd rfl hne
          | cons a b => simp
        simp only [List.length_cons] at h
        omega
      simp only [List.flatten_cons]
      rw [ih r hlen, happ]

/-- The lossless-segmentation assert of `SegmentedText.from_string`: the
tokens always rejoin to the input, so `ErrLossySegmentation` never fires. -/
theorem lexAll_flatten (s : List Char) : (lexAll s).flatten = s :=
  lexGo_flatten s.length s le_rfl

/-!  ### `SegmentFactory` and the segment constructors

`SegmentFactory.from_string` classifies each token by prefix regex match and
calls the segment constructor; `TagSegment.__init__` extracts the tag name
with `re.search(r'</(\w+)>')` (closing) or `re.search(r'<(\w+)')` (opening)
and raises `ValueError` (the `ErrMalformedTag` kind) when the search fails;
`PairedTagSegment.__init__` additionally raises unless the string is exactly
`</g>` or starts with `<g`. -/

inductive SegErr where
  | malformedTag : SegErr
deriving DecidableEq

/-- Match `</(\w+)>` at the current position: `</`, a greedy non-empty word
run, then `>` (a shorter run would end at a word character, not `>`). -/
def closingAt (cs : List Char) : Option (List Char) :=
  match cs with
  | c1 :: c2 :: rest =>
    if c1 = '<' ∧ c2 = '/' then
      if (rest.takeWhile isWordChar).isEmpty then none
      else
        match rest.dropWhile isWordChar with
        | c :: _ => if c = '>' then some (rest.takeWhile isWordChar) else none
        | [] => none
    else none
  | _ => none

/-- `re.search(r'</(\w+)>', t)`: leftmost match. -/
def searchClosing : List Char → Option (List Char)
  | [] => none
  | c :: rest =>
    match closingAt (c :: rest) with
    | some nm => some nm
    | none => searchClosing rest

/-- Match `<(\w+)` at the current position. -/
def openingAt (cs : List Char) : Option (List Char) :=
  match cs with
  | c :: rest =>
    if c = '<' then
      if (rest.takeWhile isWordChar).isEmpty then none
      else some (rest.takeWhile isWordChar)
    else none
  | [] => none

/-- `re.search(r'<(\w+)', t)`: leftmost match. -/
def searchOpening : List Char → Option (List Char)
  | [] => none
  | c :: rest =>
    match openingAt (c :: rest) with
    | some nm => some nm
    | none => searchOpening rest

/-- `TagSegment.__init__`: the extracted `.tag` name, or `ErrMalformedTag`. -/
def tagNameOf (t : List Char) : Except SegErr (List Char) :=
  if t.take 2 = ['<', '/'] then
    match searchClosing t with
    | some nm => .ok nm
    | none => .error .malformedTag
  else
    match searchOpening t with
    | some nm => .ok nm
    | none => .error .malformedTag

/-- `PairedTagSegment.__init__` (which first runs `TagSegment.__init__`). -/
def mkPaired (i : Nat) (t : List Char) : Except SegErr Segment :=
  match tagNameOf t with
  | .error e => .error e
  | .ok nm =>
    if t = ['<', '/', 'g', '>'] then .ok ⟨i, .pairedTag nm false, t⟩
    else if t.take 2 = ['<', 'g'] then .ok ⟨i, .pairedTag nm true, t⟩
    else .error .malformedTag

/-- `SegmentFactory.from_string` on one token, the fresh identity `i` given
by the token's position. -/
def segFactory (i : Nat) (t : List Char) : Except SegErr Segment :=
  if (matchTagWith matchNameG t).isSome then mkPaired i t
  else if (matchTagWith matchNamePh t).isSome then
    match tagNameOf t with
    | .error e => .error e
    | .ok nm => .ok ⟨i, .tag nm, t⟩
  else
    match t with
    | c :: _ => if pyWs c then .ok ⟨i, .whitespace, t⟩ else .ok ⟨i, .text, t⟩
    | [] => .ok ⟨i, .text, t⟩

def buildSegs : Nat → List (List Char) → Except SegErr (List Segment)
  | _, [] => .ok []
  | i, t :: ts =>
    match segFactory i t with
    | .error e => .error e
    | .ok sg =>
      match buildSegs (i + 1) ts with
      | .error e => .error e
      | .ok rest => .ok (sg :: rest)

/-- `SegmentedText.from_string`: lex, assert losslessness (never fires, by
`lexAll_flatten`), then construct segments — which can fail with
`ErrMalformedTag`. -/
def fromString (s : List Char) : Except SegErr (List Segment) :=
  buildSegs 0 (lexAll s)

theorem segFactory_surface (i : Nat) (t : List Char) :
    ∀ sg, segFactory i t = .ok sg → sg.surface = t := by
  intro sg h
  unfold segFactory at h
  by_cases h1 : (matchTagWith matchNameG t).isSome
  · rw [if_pos h1] at h
    unfold mkPaired at h
    cases hn : tagNameOf t with
    | error e => rw [hn] at h; simp at h
    | ok nm =>
      rw [hn] at h
      simp only at h
      by_cases h2 : t = ['<', '/', 'g', '>']
      · rw [if_pos h2] at h; cases h; rfl
      · rw [if_neg h2] at h
        by_cases h3 : t.take 2 = ['<', 'g']
        · rw [if_pos h3] at h; cases h; rfl
        · rw [if_neg h3] at h; simp at h
  · rw [if_neg h1] at h
    by_cases h2 : (matchTagWith matchNamePh t).isSome
    · rw [if_pos h2] at h
      cases hn : tagNameOf t with
      | error e => rw [hn] at h; simp at h
      | ok nm => rw [hn] at h; cases h; rfl
    · rw [if_neg h2] at h
      cases t with
      | nil => cases h; rfl
      | cons c rest =>
        simp only at h
        by_cases h3 : pyWs c = true
        · rw [if_pos h3] at h; cases h; rfl
        · rw [if_neg h3] at h; cases h; rfl

theorem buildSegs_strOf (ts : List (List Char)) :
    ∀ i sgs, buildSegs i ts = .ok sgs → strOf sgs = ts.flatten := by
  induction ts with
  | nil =>
    intro i sgs h
    simp only [buildSegs] at h
    cases h
    simp [strOf]
  | cons t rest ih =>
    intro i sgs h
    simp only [buildSegs] at h
    cases hf : segFactory i t with
    | error e => rw [hf] at h; simp at h
    | ok sg =>
      rw [hf] at h
      simp only at h
      cases hb : buildSegs (i + 1) rest with
      | error e => rw [hb] at h; simp at h
      | ok sgs' =>
        rw [hb] at h
        simp only [Except.ok.injEq] at h
        subst h
        simp only [strOf, List.map_cons, List.flatten_cons]
        rw [segFactory_surface i t sg hf]
        have := ih (i + 1) sgs' hb
        simp only [strOf] at this
        rw [this]

/-- C1 (amended): the lexer always covers the input — the surface
concatenation assert holds for every string, so `ErrLossySegmentation` never
fires — and whenever `from_string(s)` succeeds, the surfaces of the produced
segments rejoin to `s` byte for byte.  (`from_string` itself is not total:
see the counterexample.) -/
theorem c1_from_string_lossless (s : List Char) :
    (lexAll s).flatten = s ∧
    ∀ sgs, fromString s = .ok sgs → strOf sgs = s := by
  refine ⟨lexAll_flatten s, ?_⟩
  intro sgs h
  have := buildSegs_strOf (lexAll s) 0 sgs h
  rw [this, lexAll_flatten s]

/-- C1 counterexample: `from_string("</g >")` does not succeed — the token
`</g >` is classified as a paired tag, but `TagSegment.__init__` finds no
`</(\w+)>` and raises `ValueError` (`ErrMalformedTag`). -/
theorem c1_from_string_fails :
    fromString ['<', '/', 'g', ' ', '>'] = .error .malformedTag := by
  rfl

/-!  ### `AlignedSegments.recover_alignment` (document_translation/alignedsegments.py)

The code filters both sides (`"\n"` counts as non-whitespace), then walks the
target segments, consuming source segments greedily: equal → pair and break;
prefix → pair and continue on the remaining string; otherwise
`AssertionError` (the `ErrUnrecoverableAlignment` kind).  `next(src_iter)` on
an exhausted iterator raises an *uncaught* `StopIteration`, a distinct
failure.  After the walk the source cursor must be exhausted, else
`AssertionError`. -/

inductive RecErr where
  | unrecoverable : RecErr
  | stopIteration : RecErr
deriving DecidableEq

/-- Source filter: `not isinstance(seg, WhitespaceSegment) or str(seg) == "\n"`. -/
def srcKeep (s : Segment) : Bool :=
  !s.isWs || s.surface = ['\n']

/-- Target filter: `not isinstance(seg, (WhitespaceSegment, SentenceSeparator))
or str(seg) == "\n"`. -/
def tgtKeep (s : Segment) : Bool :=
  (!s.isWs && !s.isSep) || s.surface = ['\n']

/-- `p` is a prefix of `r` (Python `r.startswith(p)`). -/
def isPre : List Char → List Char → Bool
  | [], _ => true
  | _ :: _, [] => false
  | a :: p, b :: r => a = b && isPre p r

/-- The inner `while True` loop of `recover_alignment` for one target segment
with remaining string `r`: consume source segments until `r` is matched. -/
def matchOne : List Segment → List Char → Segment →
    Except RecErr (List (Segment × Segment) × List Segment)
  | [], _, _ => .error .stopIteration
  | v :: vs, r, u =>
    if v.surface = r then .ok ([(v, u)], vs)
    else if isPre v.surface r then
      match matchOne vs (r.drop v.surface.length) u with
      | .ok (ps, rest) => .ok ((v, u) :: ps, rest)
      | .error e => .error e
    else .error .unrecoverable

/-- The outer loop over target segments, with the final exhaustion check. -/
def walkTgt : List Segment → List Segment → Except RecErr (List (Segment × Segment))
  | srcs, [] => if srcs.isEmpty then .ok [] else .error .unrecoverable
  | srcs, u :: us =>
    match matchOne srcs u.surface u with
    | .error e => .error e
    | .ok (ps, rest) =>
      match walkTgt rest us with
      | .error e => .error e
      | .ok qs => .ok (ps ++ qs)

/-- `AlignedSegments.recover_alignment` under its precondition (the alignment
is empty): the pair list it builds, or the failure kind. -/
def recoverAlignment (src tgt : List Segment) :
    Except RecErr (List (Segment × Segment)) :=
  walkTgt (src.filter srcKeep) (tgt.filter tgtKeep)

/-- Declarative success condition: the filtered source splits into
consecutive non-empty runs, one per filtered target segment, each run's
surfaces concatenating to that target's surface; the produced pairs align
every run member to its target. -/
inductive Chunks : List Segment → List Segment → List (Segment × Segment) → Prop where
  | nil : Chunks [] [] []
  | cons (run : List Segment) (u : Segment) (rest us : List Segment)
      (ps : List (Segment × Segment)) :
      run ≠ [] → strOf run = u.surface →
      Chunks rest us ps →
      Chunks (run ++ rest) (u :: us) (run.map (fun v => (v, u)) ++ ps)

/-- The greedy consumption of one target string fails on a mismatch: after
zero or more proper-prefix steps, the next source segment neither equals nor
is a prefix of the remaining target string. -/
inductive MMis : List Segment → List Char → Prop where
  | mismatch (v : Segment) (vs : List Segment) (r : List Char) :
      v.surface ≠ r → ¬ isPre v.surface r = true → MMis (v :: vs) r
  | preStep (v : Segment) (vs : List Segment) (r : List Char) :
      v.surface ≠ r → isPre v.surface r = true →
      MMis vs (r.drop v.surface.length) → MMis (v :: vs) r

/-- The greedy consumption of one target string succeeds, leaving `rest`. -/
inductive MRun : List Segment → List Char → List Segment → Prop where
  | last (v : Segment) (vs : List Segment) (r : List Char) :
      v.surface = r → MRun (v :: vs) r vs
  | step (v : Segment) (vs rest : List Segment) (r : List Char) :
      v.surface ≠ r → isPre v.surface r = true →
      MRun vs (r.drop v.surface.length) rest → MRun (v :: vs) r rest

/-- The claim's `ErrUnrecoverableAlignment` condition, transliterated: while
walking the target segments, the next source segment neither equals nor is a
prefix of the remaining target string (`here`, via `MMis`), or unconsumed
source segments remain after the target walk (`leftover`). -/
inductive UnrecWalk : List Segment → List Segment → Prop where
  | leftover (v : Segment) (vs : List Segment) : UnrecWalk (v :: vs) []
  | here (srcs : List Segment) (u : Segment) (us : List Segment) :
      MMis srcs u.surface → UnrecWalk srcs (u :: us)
  | later (srcs rest : List Segment) (u : Segment) (us : List Segment) :
      MRun srcs u.surface rest → UnrecWalk rest us → UnrecWalk srcs (u :: us)

theorem isPre_drop (p : List Char) :
    ∀ r, isPre p r = true → p ++ r.drop p.length = r := by
  induction p with
  | nil => intro r _; simp
  | cons a p ih =>
    intro r h
    cases r with
    | nil => simp [isPre] at h
    | cons b r' =>
      simp only [isPre, Bool.and_eq_true, decide_eq_true_eq] at h
      rcases h with ⟨h1, h2⟩
      subst h1
      simp only [List.length_cons, List.drop_succ_cons, List.cons_append,
        List.cons.injEq, true_and]
      exact ih r' h2

theorem isPre_self_append (p t : List Char) : isPre p (p ++ t) = true := by
  induction p with
  | nil => simp [isPre]
  | cons a p ih => simp [isPre, ih]

theorem matchOne_ok_run (srcs : List Segment) :
    ∀ r u ps rest, matchOne srcs r u = .ok (ps, rest) →
      ∃ run, srcs = run ++ rest ∧ run ≠ [] ∧
        ps = run.map (fun v => (v, u)) ∧ strOf run = r := by
  induction srcs with
  | nil => intro r u ps rest h; simp [matchOne] at h
  | cons v vs ih =>
    intro r u ps rest h
    simp only [matchOne] at h
    by_cases he : v.surface = r
    · rw [if_pos he] at h
      simp only [Except.ok.injEq, Prod.mk.injEq] at h
      rcases h with ⟨h1, h2⟩
      refine ⟨[v], by simp [h2], by simp, by simp [← h1], ?_⟩
      simp [strOf, he]
    · rw [if_neg he] at h
      by_cases hp : isPre v.surface r = true
      · rw [if_pos hp] at h
        cases hrec : matchOne vs (r.drop v.surface.length) u with
        | error e => rw [hrec] at h; simp at h
        | ok q =>
          rw [hrec] at h
          cases q with
          | mk ps' rest' =>
            simp only [Except.ok.injEq, Prod.mk.injEq] at h
            rcases h with ⟨h1, h2⟩
            rcases ih _ u ps' rest' hrec with ⟨run, hr1, hr2, hr3, hr4⟩
            refine ⟨v :: run, by simp [hr1, h2], by simp, by simp [← h1, hr3], ?_⟩
            simp only [strOf, List.map_cons, List.flatten_cons]
            simp only [strOf] at hr4
            rw [hr4]
            exact isPre_drop v.surface r hp
      · rw [if_neg hp] at h; simp at h

theorem matchOne_of_run (run : List Segment) :
    ∀ (rest : List Segment) (r : List Char) (u : Segment), run ≠ [] →
      (∀ v ∈ run, v.surface ≠ []) → strOf run = r →
      matchOne (run ++ rest) r u = .ok (run.map (fun v => (v, u)), rest) := by
  induction run with
  | nil => intro rest r u h; exact absurd rfl h
  | cons v run' ih =>
    intro rest r u _ hne hcat
    cases run' with
    | nil =>
      simp only [strOf, List.map_cons, List.map_nil, List.flatten_cons,
        List.flatten_nil, List.append_nil] at hcat
      simp only [List.cons_append, List.nil_append, matchOne, if_pos hcat]
      simp
    | cons w run'' =>
      have htail : strOf (w :: run'') ≠ [] := by
        have hw : w.surface ≠ [] := hne w (by simp)
        simp only [strOf, List.map_cons, List.flatten_cons]
        intro hcontra
        rw [List.append_eq_nil] at hcontra
        exact hw hcontra.1
      have hr : r = v.surface ++ strOf (w :: run'') := by
        rw [← hcat]
        simp [strOf]
      have hvne : v.surface ≠ r := by
        intro hcontra
        have := congrArg List.length hr
        rw [← hcontra] at this
        simp only [List.length_append] at this
        have : (strOf (w :: run'')).length = 0 := by omega
        rw [List.length_eq_zero] at this
        exact htail this
      have hvp : isPre v.surface r = true := by
        rw [hr]; exact isPre_self_append _ _
      simp only [List.cons_append, matchOne, if_neg hvne, if_pos hvp]
      have hdrop : r.drop v.surface.length = strOf (w :: run'') := by
        rw [hr]
        exact List.drop_left _ _
      rw [hdrop]
      have hih := ih rest (strOf (w :: run'')) u (by simp)
        (fun x hx => hne x (List.mem_cons_of_mem v hx)) rfl
      show (match matchOne ((w :: run'') ++ rest) (strOf (w :: run'')) u with
        | Except.ok (ps, rest') => Except.ok ((v, u) :: ps, rest')
        | Except.error e => Except.error e) =
        Except.ok (List.map (fun v => (v, u)) (v :: w :: run''), rest)
      rw [hih]
      simp

theorem walkTgt_ok_chunks (tgts : List Segment) :
    ∀ srcs ps, walkTgt srcs tgts = .ok ps → Chunks srcs tgts ps := by
  induction tgts with
  | nil =>
    intro srcs ps h
    simp only [walkTgt] at h
    by_cases hs : srcs.isEmpty
    · rw [if_pos hs] at h
      simp only [Except.ok.injEq] at h
      subst h
      rw [List.isEmpty_iff] at hs
      subst hs
      exact Chunks.nil
    · rw [if_neg hs] at h; simp at h
  | cons u us ih =>
    intro srcs ps h
    simp only [walkTgt] at h
    cases hm : matchOne srcs u.surface u with
    | error e => rw [hm] at h; simp at h
    | ok q =>
      rw [hm] at h
      cases q with
      | mk ps1 rest =>
        simp only at h
        cases hw : walkTgt rest us with
        | error e => rw [hw] at h; simp at h
        | ok qs =>
          rw [hw] at h
          simp only [Except.ok.injEq] at h
          subst h
          rcases matchOne_ok_run srcs u.surface u ps1 rest hm with
            ⟨run, hr1, hr2, hr3, hr4⟩
          rw [hr1, hr3]
          exact Chunks.cons run u rest us qs hr2 hr4 (ih rest qs hw)

theorem chunks_walkTgt (srcs tgts : List Segment) (ps : List (Segment × Segment))
    (hch : Chunks srcs tgts ps) (hne : ∀ v ∈ srcs, v.surface ≠ []) :
    walkTgt srcs tgts = .ok ps := by
  induction hch with
  | nil => rfl
  | cons run u rest us qs h1 h2 h3 ih =>
    have hrun : ∀ v ∈ run, v.surface ≠ [] :=
      fun v hv => hne v (List.mem_append.mpr (Or.inl hv))
    have hrest : ∀ v ∈ rest, v.surface ≠ [] :=
      fun v hv => hne v (List.mem_append.mpr (Or.inr hv))
    simp only [walkTgt]
    rw [matchOne_of_run run rest u.surface u h1 hrun h2]
    simp only
    rw [ih hrest]

theorem matchOne_err_unrec (srcs : List Segment) :
    ∀ r u, matchOne srcs r u = .error .unrecoverable ↔ MMis srcs r := by
  induction srcs with
  | nil =>
    intro r u
    constructor
    · intro h; simp [matchOne] at h
    · intro h; cases h
  | cons v vs ih =>
    intro r u
    simp only [matchOne]
    by_cases he : v.surface = r
    · rw [if_pos he]
      constructor
      · intro h; simp at h
      · intro h
        cases h with
        | mismatch _ _ _ h1 _ => exact absurd he h1
        | preStep _ _ _ h1 _ _ => exact absurd he h1
    · rw [if_neg he]
      by_cases hp : isPre v.surface r = true
      · rw [if_pos hp]
        constructor
        · intro h
          cases hrec : matchOne vs (r.drop v.surface.length) u with
          | error e =>
            rw [hrec] at h
            simp only [Except.error.injEq] at h
            subst h
            exact MMis.preStep v vs r he hp ((ih _ u).mp hrec)
          | ok q => rw [hrec] at h; cases q; simp at h
        · intro h
          cases h with
          | mismatch _ _ _ _ h2 => exact absurd hp h2
          | preStep _ _ _ _ _ h3 =>
            rw [(ih _ u).mpr h3]
      · rw [if_neg hp]
        constructor
        · intro _; exact MMis.mismatch v vs r he hp
        · intro _; rfl

theorem mrun_matchOne (srcs : List Segment) (r : List Char) (rest : List Segment)
    (u : Segment) (h : MRun srcs r rest) :
    matchOne srcs r u = .ok (srcs.take (srcs.length - rest.length) |>.map (fun v => (v, u)), rest) ∨
    ∃ ps, matchOne srcs r u = .ok (ps, rest) := by
  right
  induction h with
  | last v vs r h1 => exact ⟨[(v, u)], by simp [matchOne, h1]⟩
  | step v vs rest' r' h1 h2 h3 ih =>
    rcases ih with ⟨ps, hps⟩
    exact ⟨(v, u) :: ps, by simp only [matchOne, if_neg h1, if_pos h2, hps]⟩

theorem matchOne_mrun (srcs : List Segment) :
    ∀ r u ps rest, matchOne srcs r u = .ok (ps, rest) → MRun srcs r rest := by
  induction srcs with
  | nil => intro r u ps rest h; simp [matchOne] at h
  | cons v vs ih =>
    intro r u ps rest h
    simp only [matchOne] at h
    by_cases he : v.surface = r
    · rw [if_pos he] at h
      simp only [Except.ok.injEq, Prod.mk.injEq] at h
      rw [← h.2]
      exact MRun.last v vs r he
    · rw [if_neg he] at h
      by_cases hp : isPre v.surface r = true
      · rw [if_pos hp] at h
        cases hrec : matchOne vs (r.drop v.surface.length) u with
        | error e => rw [hrec] at h; simp at h
        | ok q =>
          rw [hrec] at h
          cases q with
          | mk ps' rest' =>
            simp only [Except.ok.injEq, Prod.mk.injEq] at h
            rw [← h.2]
            exact MRun.step v vs rest' r he hp (ih _ u ps' rest' hrec)
      · rw [if_neg hp] at h; simp at h

theorem walkTgt_err_iff (tgts : List Segment) :
    ∀ srcs, walkTgt srcs tgts = .error .unrecoverable ↔ UnrecWalk srcs tgts := by
  induction tgts with
  | nil =>
    intro srcs
    simp only [walkTgt]
    cases srcs with
    | nil =>
      constructor
      · intro h; simp at h
      · intro h; cases h
    | cons v vs =>
      constructor
      · intro _; exact UnrecWalk.leftover v vs
      · intro _; rfl
  | cons u us ih =>
    intro srcs
    simp only [walkTgt]
    constructor
    · intro h
      cases hm : matchOne srcs u.surface u with
      | error e =>
        rw [hm] at h
        simp only [Except.error.injEq] at h
        subst h
        exact UnrecWalk.here srcs u us ((matchOne_err_unrec srcs u.surface u).mp hm)
      | ok q =>
        rw [hm] at h
        cases q with
        | mk ps rest =>
          simp only at h
          cases hw : walkTgt rest us with
          | error e =>
            rw [hw] at h
            simp only [Except.error.injEq] at h
            subst h
            exact UnrecWalk.later srcs rest u us
              (matchOne_mrun srcs u.surface u ps rest hm) ((ih rest).mp hw)
          | ok qs => rw [hw] at h; simp at h
    · intro h
      cases h with
      | here _ _ _ hm =>
        rw [(matchOne_err_unrec srcs u.surface u).mpr hm]
      | later _ rest _ _ hrun hwalk =>
        rcases mrun_matchOne srcs u.surface rest u hrun with h1 | ⟨ps, hps⟩
        · rw [h1]
          simp only
          rw [(ih rest).mpr hwalk]
        · rw [hps]
          simp only
          rw [(ih rest).mpr hwalk]

/-- C6: with the empty-alignment precondition, `recover_alignment` succeeds
exactly when the filtered source splits into consecutive runs that
concatenate to the filtered target surfaces — and then the produced pairs
align each target to precisely its consecutive source run — and it fails with
`ErrUnrecoverableAlignment` exactly when the next source segment neither
equals nor is a prefix of the remaining target string, or when unconsumed
source segments remain after the target walk.  (Source segments have
non-empty surfaces; exhausting the source mid-walk raises the distinct
`StopIteration` instead.) -/
theorem c6_recover_alignment (src tgt : List Segment)
    (hne : ∀ v ∈ src.filter srcKeep, v.surface ≠ []) :
    (∀ ps, recoverAlignment src tgt = .ok ps →
        Chunks (src.filter srcKeep) (tgt.filter tgtKeep) ps) ∧
    ((∃ ps, recoverAlignment src tgt = .ok ps) ↔
        ∃ ps, Chunks (src.filter srcKeep) (tgt.filter tgtKeep) ps) ∧
    (recoverAlignment src tgt = .error .unrecoverable ↔
        UnrecWalk (src.filter srcKeep) (tgt.filter tgtKeep)) := by
  refine ⟨fun ps h => walkTgt_ok_chunks _ _ ps h, ⟨?_, ?_⟩, walkTgt_err_iff _ _⟩
  · rintro ⟨ps, h⟩
    exact ⟨ps, walkTgt_ok_chunks _ _ ps h⟩
  · rintro ⟨ps, h⟩
    exact ⟨ps, chunks_walkTgt _ _ ps h hne⟩

/-- Witness for C6 at a concrete input: source `He`, `llo` (one space
dropped by the filter), target `Hello`. -/
theorem c6_recover_alignment_witness :
    (∀ v ∈ ([⟨0, .text, ['H', 'e']⟩, ⟨1, .whitespace, [' ']⟩,
             ⟨2, .text, ['l', 'l', 'o']⟩] : List Segment).filter srcKeep,
        v.surface ≠ []) ∧
    ((∀ ps, recoverAlignment
          [⟨0, .text, ['H', 'e']⟩, ⟨1, .whitespace, [' ']⟩, ⟨2, .text, ['l', 'l', 'o']⟩]
          [⟨3, .text, ['H', 'e', 'l', 'l', 'o']⟩] = .ok ps →
        Chunks (([⟨0, .text, ['H', 'e']⟩, ⟨1, .whitespace, [' ']⟩,
             ⟨2, .text, ['l', 'l', 'o']⟩] : List Segment).filter srcKeep)
          (([⟨3, .text, ['H', 'e', 'l', 'l', 'o']⟩] : List Segment).filter tgtKeep) ps) ∧
      ((∃ ps, recoverAlignment
          [⟨0, .text, ['H', 'e']⟩, ⟨1, .whitespace, [' ']⟩, ⟨2, .text, ['l', 'l', 'o']⟩]
          [⟨3, .text, ['H', 'e', 'l', 'l', 'o']⟩] = .ok ps) ↔
        ∃ ps, Chunks (([⟨0, .text, ['H', 'e']⟩, ⟨1, .whitespace, [' ']⟩,
             ⟨2, .text, ['l', 'l', 'o']⟩] : List Segment).filter srcKeep)
          (([⟨3, .text, ['H', 'e', 'l', 'l', 'o']⟩] : List Segment).filter tgtKeep) ps) ∧
      (recoverAlignment
          [⟨0, .text, ['H', 'e']⟩, ⟨1, .whitespace, [' ']⟩, ⟨2, .text, ['l', 'l', 'o']⟩]
          [⟨3, .text, ['H', 'e', 'l', 'l', 'o']⟩] = .error .unrecoverable ↔
        UnrecWalk (([⟨0, .text, ['H', 'e']⟩, ⟨1, .whitespace, [' ']⟩,
             ⟨2, .text, ['l', 'l', 'o']⟩] : List Segment).filter srcKeep)
          (([⟨3, .text, ['H', 'e', 'l', 'l', 'o']⟩] : List Segment).filter tgtKeep))) :=
  ⟨by decide, c6_recover_alignment _ _ (by decide)⟩

/-!  ### `rightmost/leftmost_alignment_by_src` and `TagReinserter.reinsert_segments`

`rightmost_alignment_by_src` / `leftmost_alignment_by_src`
(document_translation/alignedsegments.py) scan the source keeping a running
max (resp. min, right to left) of the target indices aligned to each source
segment; the index lookup is the dict `{tgt: i for i, tgt in enumerate(tgt)}`,
i.e. the *last* occurrence.  `TagReinserter.reinsert_segments`
(markuptranslator/tagreinserter.py, the live loop) walks the source keeping
`maximum_aligned_tgt`, the running maximum aligned target index (via
`self.tgt.index`, the *first* occurrence, on the current — already mutated —
target), and inserts every to-be-reinserted segment at
`maximum_aligned_tgt + 1`, self-aligning it.  Index lookups are partial in
Python (`KeyError`/`ValueError` on missing targets); the theorems assume the
alignment's targets occur in the target text. -/

/-- The last-occurrence index lookup built by
`{tgt: i for i, tgt in enumerate(self.tgt)}`. -/
def lastIndexOf (tgt : List Segment) (t : Segment) : Option Nat :=
  ((tgt.enum.filter (fun p => p.2 = t)).map Prod.fst).getLast?

/-- One step of the running maximum of `rightmost_alignment_by_src`. -/
def stepRight (al : Alignment) (tgt : List Segment) (s : Segment) (cur : Int) : Int :=
  if al.isSrcAligned s then
    ((al.get s).map (fun t => (((lastIndexOf tgt t).getD 0 : Nat) : Int))).foldl max cur
  else cur

def rightmostGo (al : Alignment) (tgt : List Segment) :
    List Segment → Int → List Int
  | [], _ => []
  | s :: rest, cur =>
    stepRight al tgt s cur :: rightmostGo al tgt rest (stepRight al tgt s cur)

/-- `AlignedSegments.rightmost_alignment_by_src`. -/
def rightmostBySrc (src tgt : List Segment) (al : Alignment) : List Int :=
  rightmostGo al tgt src (-1)

/-- One step of the running minimum of `leftmost_alignment_by_src`. -/
def stepLeft (al : Alignment) (tgt : List Segment) (s : Segment) (cur : Int) : Int :=
  if al.isSrcAligned s then
    ((al.get s).map (fun t => (((lastIndexOf tgt t).getD 0 : Nat) : Int))).foldl min cur
  else cur

def leftmostGo (al : Alignment) (tgt : List Segment) :
    List Segment → Int → List Int
  | [], _ => []
  | s :: rest, cur =>
    stepLeft al tgt s cur :: leftmostGo al tgt rest (stepLeft al tgt s cur)

/-- `AlignedSegments.leftmost_alignment_by_src`: scan `reversed(src)` with a
running min starting at `len(tgt)`, then reverse. -/
def leftmostBySrc (src tgt : List Segment) (al : Alignment) : List Int :=
  (leftmostGo al tgt src.reverse (tgt.length : Int)).reverse

/-- `_to_be_reinserted` of `TagReinserter.reinsert_segments`: not reinserted
when already aligned; a `TagSegment` — *including* its subclass
`PairedTagSegment`, which only triggers a `logger.warning` — is reinserted;
a `WhitespaceSegment` is reinserted unless its surface is `" "` or `"\n"`. -/
def toBeReinserted (al : Alignment) (s : Segment) : Bool :=
  if al.isSrcAligned s then false
  else if s.isTagLike then true
  else if s.isWs && s.surface ≠ [' '] && s.surface ≠ ['\n'] then true
  else false

/-- Python `list.insert(n, x)` (clamps past the end). -/
def insertAt : Nat → Segment → List Segment → List Segment
  | _, x, [] => [x]
  | 0, x, l => x :: l
  | n + 1, x, a :: l => a :: insertAt n x l

/-- The mutable state of the `reinsert_segments` loop.  `log` is a ghost
field recording each insertion `(segment, position)`; it does not exist in
the Python and does not influence the computation. -/
structure RState where
  tgt : List Segment
  al : Alignment
  maxA : Int
  log : List (Segment × Nat)

/-- The `maximum_aligned_tgt` update at one source segment:
`if aligned_tgts: maximum_aligned_tgt = max(maximum_aligned_tgt,
max(self.tgts_to_indices(aligned_tgts)))`, with `tgts_to_indices` via
`self.tgt.index` (first occurrence) on the current target. -/
def stepMax (st : RState) (seg : Segment) : Int :=
  if (st.al.get seg).isEmpty then st.maxA
  else ((st.al.get seg).map (fun t => (st.tgt.indexOf t : Int))).foldl max st.maxA

/-- One iteration of the `reinsert_segments` loop. -/
def reinsertStep (st : RState) (seg : Segment) : RState :=
  if toBeReinserted st.al seg then
    ⟨insertAt (stepMax st seg + 1).toNat seg st.tgt, st.al.add seg seg,
     stepMax st seg + 1, st.log ++ [(seg, (stepMax st seg + 1).toNat)]⟩
  else ⟨st.tgt, st.al, stepMax st seg, st.log⟩

/-- `TagReinserter.reinsert_segments` on `AlignedSegments(src, tgt, al)`. -/
def reinsertSegments (src tgt : List Segment) (al : Alignment) : RState :=
  src.foldl reinsertStep ⟨tgt, al, -1, []⟩

theorem get_add_ne (A : Alignment) (s t x : Segment) (h : x ≠ s) :
    (A.add s t).get x = A.get x := by
  simp only [Alignment.get, Alignment.add]
  by_cases hm : (s, t) ∈ A.pairs
  · simp [hm]
  · simp only [hm, if_false, List.filter_append]
    have : List.filter (fun p => decide (p.1 = x)) [(s, t)] = [] := by
      simp [Ne.symm h]
    rw [this, List.append_nil]

theorem toBeReinserted_add_ne (al : Alignment) (s x : Segment) (h : x ≠ s) :
    toBeReinserted (al.add s s) x = toBeReinserted al x := by
  simp only [toBeReinserted, Alignment.isSrcAligned, get_add_ne al s s x h]

theorem insertAt_perm (x : Segment) : ∀ (n : Nat) (l : List Segment),
    (insertAt n x l).Perm (x :: l) := by
  intro n
  induction n with
  | zero =>
    intro l
    cases l with
    | nil => simp [insertAt]
    | cons a l' => simp [insertAt]
  | succ n ih =>
    intro l
    cases l with
    | nil => simp [insertAt]
    | cons a l' =>
      simp only [insertAt]
      exact ((ih l').cons a).trans (List.Perm.swap x a l')

theorem reinsert_fold_perm : ∀ (src : List Segment) (st : RState),
    src.Nodup →
    ((src.foldl reinsertStep st).tgt).Perm
      (st.tgt ++ src.filter (fun s => toBeReinserted st.al s)) := by
  intro src
  induction src with
  | nil => intro st _; simp
  | cons s rest ih =>
    intro st hnd
    rcases List.nodup_cons.mp hnd with ⟨hs, hrest⟩
    simp only [List.foldl_cons, List.filter_cons]
    by_cases hc : toBeReinserted st.al s = true
    · have hstep : reinsertStep st s =
          ⟨insertAt (stepMax st s + 1).toNat s st.tgt, st.al.add s s,
           stepMax st s + 1, st.log ++ [(s, (stepMax st s + 1).toNat)]⟩ := by
        simp [reinsertStep, hc]
      rw [hstep]
      have hfilter : rest.filter (fun x => toBeReinserted (st.al.add s s) x) =
          rest.filter (fun x => toBeReinserted st.al x) := by
        apply List.filter_congr
        intro x hx
        rw [toBeReinserted_add_ne st.al s x (fun he => hs (he ▸ hx))]
      have h1 := ih ⟨insertAt (stepMax st s + 1).toNat s st.tgt, st.al.add s s,
        stepMax st s + 1, st.log ++ [(s, (stepMax st s + 1).toNat)]⟩ hrest
      simp only at h1
      rw [hfilter] at h1
      refine h1.trans ?_
      simp only [hc, if_pos]
      refine ((insertAt_perm s _ st.tgt).append_right _).trans ?_
      exact List.perm_middle.symm
    · have hstep : reinsertStep st s = ⟨st.tgt, st.al, stepMax st s, st.log⟩ := by
        simp [reinsertStep, hc]
      rw [hstep]
      have h1 := ih ⟨st.tgt, st.al, stepMax st s, st.log⟩ hrest
      simp only at h1
      refine h1.trans ?_
      simp [hc]

/-- C4 (amended): `reinsert_segments` inserts a source segment into the
target exactly when it is unaligned and is a tag — a placeholder TAG *or* a
PAIRED_TAG, the latter with a logged warning — or a WHITESPACE whose surface
is neither `" "` nor `"\n"`.  Contrary to the claim, an unaligned PAIRED_TAG
is reinserted by this pass (see the counterexample). -/
theorem c4_reinsert_condition (src tgt : List Segment) (al : Alignment)
    (hnd : src.Nodup) :
    ((reinsertSegments src tgt al).tgt).Perm
      (tgt ++ src.filter (fun s => toBeReinserted al s)) ∧
    ∀ s : Segment, toBeReinserted al s = true ↔
      (al.isSrcAligned s = false ∧
        (s.isTagLike = true ∨
          (s.isWs = true ∧ s.surface ≠ [' '] ∧ s.surface ≠ ['\n']))) := by
  constructor
  · exact reinsert_fold_perm src ⟨tgt, al, -1, []⟩ hnd
  · intro s
    simp only [toBeReinserted]
    by_cases h1 : al.isSrcAligned s = true
    · simp [h1]
    · rw [if_neg h1]
      by_cases h2 : s.isTagLike = true
      · simp only [h2, if_pos]
        simp only [Bool.not_eq_true] at h1
        simp [h1, h2]
      · simp only [Bool.not_eq_true] at h1 h2
        simp only [h2, Bool.false_eq_true, if_false]
        by_cases h3 : s.isWs = true ∧ s.surface ≠ [' '] ∧ s.surface ≠ ['\n']
        · rw [if_pos (by simp [h3.1, h3.2.1, h3.2.2])]
          simp [h1, h3.1, h3.2.1, h3.2.2]
        · rw [if_neg (by
            intro hcontra
            simp only [Bool.and_eq_true, decide_eq_true_eq] at hcontra
            exact h3 ⟨hcontra.1.1, by simpa using hcontra.1.2, by simpa using hcontra.2⟩)]
          simp only [h1, h2, Bool.false_eq_true, false_or, true_and]
          constructor
          · intro h; cases h
          · intro hcontra; exact absurd ⟨hcontra.1, hcontra.2.1, hcontra.2.2⟩ h3

/-- Witness for C4 at a concrete state: source `a <x/> b` aligned `a↔a`,
`b↔b`; the unaligned placeholder is reinserted. -/
theorem c4_reinsert_condition_witness :
    (([⟨0, .text, ['a']⟩, ⟨1, .tag ['x'], ['<', 'x', '/', '>']⟩,
       ⟨2, .text, ['b']⟩] : List Segment).Nodup) ∧
    (((reinsertSegments
          [⟨0, .text, ['a']⟩, ⟨1, .tag ['x'], ['<', 'x', '/', '>']⟩, ⟨2, .text, ['b']⟩]
          [⟨3, .text, ['a']⟩, ⟨4, .whitespace, [' ']⟩, ⟨5, .text, ['b']⟩]
          ((Alignment.empty.add ⟨0, .text, ['a']⟩ ⟨3, .text, ['a']⟩).add
            ⟨2, .text, ['b']⟩ ⟨5, .text, ['b']⟩)).tgt).Perm
        ([⟨3, .text, ['a']⟩, ⟨4, .whitespace, [' ']⟩, ⟨5, .text, ['b']⟩] ++
          ([⟨0, .text, ['a']⟩, ⟨1, .tag ['x'], ['<', 'x', '/', '>']⟩,
            ⟨2, .text, ['b']⟩] : List Segment).filter
            (fun s => toBeReinserted
              ((Alignment.empty.add ⟨0, .text, ['a']⟩ ⟨3, .text, ['a']⟩).add
                ⟨2, .text, ['b']⟩ ⟨5, .text, ['b']⟩) s)) ∧
      ∀ s : Segment, toBeReinserted
          ((Alignment.empty.add ⟨0, .text, ['a']⟩ ⟨3, .text, ['a']⟩).add
            ⟨2, .text, ['b']⟩ ⟨5, .text, ['b']⟩) s = true ↔
        (((Alignment.empty.add ⟨0, .text, ['a']⟩ ⟨3, .text, ['a']⟩).add
            ⟨2, .text, ['b']⟩ ⟨5, .text, ['b']⟩).isSrcAligned s = false ∧
          (s.isTagLike = true ∨
            (s.isWs = true ∧ s.surface ≠ [' '] ∧ s.surface ≠ ['\n'])))) :=
  ⟨by decide, c4_reinsert_condition _ _ _ (by decide)⟩

/-- C4 counterexample: an unaligned PAIRED_TAG *is* reinserted by this pass —
with source `[<g>]`, empty target and empty alignment, the paired tag ends up
in the target. -/
theorem c4_paired_tag_reinserted :
    (⟨0, .pairedTag ['g'] true, ['<', 'g', '>']⟩ : Segment) ∈
      (reinsertSegments [⟨0, .pairedTag ['g'] true, ['<', 'g', '>']⟩] []
        Alignment.empty).tgt ∧
    Alignment.empty.isSrcAligned ⟨0, .pairedTag ['g'] true, ['<', 'g', '>']⟩ = false := by
  constructor
  · decide
  · rfl

/-!  ### C5: the insertion position of `reinsert_segments`

The live loop inserts at `maximum_aligned_tgt + 1`, the running maximum
aligned target index over the source prefix — not at `leftmost_old[i]`.  For
the first insertion of the pass this equals `rightmost_old[i] + 1`. -/

/-- `stepMax` as a pure function of the state components. -/
def stepMaxV (al : Alignment) (tgt : List Segment) (s : Segment) (cur : Int) : Int :=
  if (al.get s).isEmpty then cur
  else ((al.get s).map (fun t => (tgt.indexOf t : Int))).foldl max cur

/-- The running `maximum_aligned_tgt` over a source prefix. -/
def runMax (al : Alignment) (tgt : List Segment) : List Segment → Int → Int
  | [], c => c
  | s :: rest, c => runMax al tgt rest (stepMaxV al tgt s c)

/-- The running maximum of `rightmost_alignment_by_src` over a prefix. -/
def runRight (al : Alignment) (tgt : List Segment) : List Segment → Int → Int
  | [], c => c
  | s :: rest, c => runRight al tgt rest (stepRight al tgt s c)

theorem foldl_max_ge (l : List Int) : ∀ c : Int, c ≤ l.foldl max c := by
  induction l with
  | nil => intro c; simp
  | cons x xs ih =>
    intro c
    simp only [List.foldl_cons]
    exact le_trans (le_max_left c x) (ih (max c x))

theorem stepMaxV_ge (al : Alignment) (tgt : List Segment) (s : Segment) (c : Int) :
    c ≤ stepMaxV al tgt s c := by
  unfold stepMaxV
  by_cases h : (al.get s).isEmpty
  · simp [h]
  · simp only [h, Bool.false_eq_true, if_false]
    exact foldl_max_ge _ c

theorem runMax_ge (al : Alignment) (tgt : List Segment) :
    ∀ (l : List Segment) (c : Int), c ≤ runMax al tgt l c := by
  intro l
  induction l with
  | nil => intro c; simp [runMax]
  | cons s rest ih =>
    intro c
    simp only [runMax]
    exact le_trans (stepMaxV_ge al tgt s c) (ih _)

theorem fold_noinsert (pre : List Segment) :
    ∀ (tgt0 : List Segment) (al0 : Alignment) (c : Int) (lg : List (Segment × Nat)),
      (∀ k ∈ pre, toBeReinserted al0 k = false) →
      pre.foldl reinsertStep ⟨tgt0, al0, c, lg⟩ =
        ⟨tgt0, al0, runMax al0 tgt0 pre c, lg⟩ := by
  induction pre with
  | nil => intro tgt0 al0 c lg _; simp [runMax]
  | cons k rest ih =>
    intro tgt0 al0 c lg hpre
    have hk : toBeReinserted al0 k = false := hpre k (List.mem_cons_self _ _)
    simp only [List.foldl_cons, runMax]
    have hstep : reinsertStep ⟨tgt0, al0, c, lg⟩ k =
        ⟨tgt0, al0, stepMaxV al0 tgt0 k c, lg⟩ := by
      simp [reinsertStep, hk, stepMax, stepMaxV]
    rw [hstep]
    exact ih tgt0 al0 _ lg (fun x hx => hpre x (List.mem_cons_of_mem _ hx))

theorem fold_log_extend : ∀ (l : List Segment) (st : RState),
    ∃ ex, (l.foldl reinsertStep st).log = st.log ++ ex := by
  intro l
  induction l with
  | nil => intro st; exact ⟨[], by simp⟩
  | cons s rest ih =>
    intro st
    simp only [List.foldl_cons]
    rcases ih (reinsertStep st s) with ⟨ex, hex⟩
    by_cases hc : toBeReinserted st.al s = true
    · refine ⟨[(s, (stepMax st s + 1).toNat)] ++ ex, ?_⟩
      rw [hex]
      simp [reinsertStep, hc]
    · refine ⟨ex, ?_⟩
      rw [hex]
      simp [reinsertStep, hc]

theorem enumFrom_filter_not_mem (t : Segment) :
    ∀ (l : List Segment) (n : Nat), t ∉ l →
      (List.enumFrom n l).filter (fun p => p.2 = t) = [] := by
  intro l
  induction l with
  | nil => intro n _; simp
  | cons a rest ih =>
    intro n hm
    simp only [List.enumFrom_cons, List.filter_cons]
    have ha : a ≠ t := fun he => hm (he ▸ List.mem_cons_self a rest)
    rw [if_neg (by simp [ha])]
    exact ih (n + 1) (fun hc => hm (List.mem_cons_of_mem a hc))

theorem enumFrom_filter_nodup (t : Segment) :
    ∀ (l : List Segment) (n : Nat), l.Nodup → t ∈ l →
      ((List.enumFrom n l).filter (fun p => p.2 = t)).map Prod.fst =
        [n + l.indexOf t] := by
  intro l
  induction l with
  | nil => intro n _ hm; simp at hm
  | cons a rest ih =>
    intro n hnd hm
    rcases List.nodup_cons.mp hnd with ⟨ha, hrest⟩
    simp only [List.enumFrom_cons, List.filter_cons]
    by_cases hat : a = t
    · subst hat
      rw [if_pos (by simp)]
      rw [enumFrom_filter_not_mem a rest (n + 1) ha]
      simp [List.indexOf_cons_self]
    · have htm : t ∈ rest := by
        rcases List.mem_cons.mp hm with h | h
        · exact absurd h.symm hat
        · exact h
      rw [if_neg (by simp [hat])]
      rw [ih (n + 1) hrest htm]
      have : (a :: rest).indexOf t = rest.indexOf t + 1 :=
        List.indexOf_cons_ne rest (fun he => hat (by simpa using he))
      rw [this]
      congr 1
      omega

theorem lastIndexOf_nodup (tgt : List Segment) (t : Segment)
    (hnd : tgt.Nodup) (hm : t ∈ tgt) :
    lastIndexOf tgt t = some (tgt.indexOf t) := by
  unfold lastIndexOf
  have := enumFrom_filter_nodup t tgt 0 hnd hm
  rw [show tgt.enum = List.enumFrom 0 tgt from rfl, this]
  simp

theorem stepMaxV_eq_stepRight (al : Alignment) (tgt : List Segment) (s : Segment)
    (c : Int) (hnd : tgt.Nodup) (hm : ∀ t ∈ al.get s, t ∈ tgt) :
    stepMaxV al tgt s c = stepRight al tgt s c := by
  unfold stepMaxV stepRight Alignment.isSrcAligned
  by_cases he : (al.get s).isEmpty
  · simp [he]
  · simp only [he, Bool.false_eq_true, if_false, Bool.not_false, if_true]
    congr 1
    apply List.map_congr_left
    intro t ht
    rw [lastIndexOf_nodup tgt t hnd (hm t ht)]
    simp

theorem runMax_eq_runRight (al : Alignment) (tgt : List Segment)
    (hnd : tgt.Nodup) (hmem : ∀ p ∈ al.pairs, p.2 ∈ tgt) :
    ∀ (l : List Segment) (c : Int), runMax al tgt l c = runRight al tgt l c := by
  intro l
  induction l with
  | nil => intro c; rfl
  | cons s rest ih =>
    intro c
    simp only [runMax, runRight]
    rw [stepMaxV_eq_stepRight al tgt s c hnd
      (fun t ht => hmem (s, t) ((mem_get al s t).mp ht))]
    exact ih _

theorem rightmostGo_getD (al : Alignment) (tgt : List Segment) (s : Segment)
    (post : List Segment) :
    ∀ (pre : List Segment) (c : Int),
      (rightmostGo al tgt (pre ++ s :: post) c).getD pre.length 0 =
        stepRight al tgt s (runRight al tgt pre c) := by
  intro pre
  induction pre with
  | nil => intro c; simp [rightmostGo, runRight]
  | cons x rest ih =>
    intro c
    simp only [List.cons_append, rightmostGo, List.length_cons, List.getD_cons_succ]
    simp only [runRight]
    exact ih _

theorem unaligned_of_toBeReinserted (al : Alignment) (s : Segment)
    (h : toBeReinserted al s = true) : (al.get s).isEmpty = true := by
  unfold toBeReinserted at h
  by_cases h1 : al.isSrcAligned s = true
  · rw [if_pos h1] at h; cases h
  · simp only [Alignment.isSrcAligned, Bool.not_eq_true] at h1
    simpa using h1

/-- C5 (amended): the first segment reinserted by the pass — at source index
`i = |pre|`, every earlier source segment not being reinserted — is inserted
at `maximum_aligned_tgt + 1`, which equals `rightmost_old[i] + 1` (not
`leftmost_old[i]` as claimed; see the counterexample); consequently whenever
`rightmost_old[i] < leftmost_old[i]` the position `j` satisfies
`rightmost_old[i] ≤ j ≤ leftmost_old[i]`. -/
theorem c5_first_reinsertion (src tgt pre post : List Segment) (s : Segment)
    (al : Alignment)
    (hsplit : src = pre ++ s :: post)
    (hpre : ∀ k ∈ pre, toBeReinserted al k = false)
    (hs : toBeReinserted al s = true)
    (hmem : ∀ p ∈ al.pairs, p.2 ∈ tgt)
    (hnd : tgt.Nodup) :
    ∃ j : Nat,
      (reinsertSegments src tgt al).log.head? = some (s, j) ∧
      (j : Int) = (rightmostBySrc src tgt al).getD pre.length 0 + 1 ∧
      ((rightmostBySrc src tgt al).getD pre.length 0 <
          (leftmostBySrc src tgt al).getD pre.length 0 →
        (rightmostBySrc src tgt al).getD pre.length 0 ≤ (j : Int) ∧
        (j : Int) ≤ (leftmostBySrc src tgt al).getD pre.length 0) := by
  subst hsplit
  have hM := runMax_ge al tgt pre (-1)
  set M : Int := runMax al tgt pre (-1) with hMdef
  have hfold : (pre ++ s :: post).foldl reinsertStep ⟨tgt, al, -1, []⟩ =
      post.foldl reinsertStep (reinsertStep ⟨tgt, al, M, []⟩ s) := by
    rw [List.foldl_append, fold_noinsert pre tgt al (-1) [] hpre]
    simp
  have hunal : (al.get s).isEmpty = true := unaligned_of_toBeReinserted al s hs
  have hstepeq : stepMax ⟨tgt, al, M, []⟩ s = M := by
    simp [stepMax, hunal]
  have hstep : reinsertStep ⟨tgt, al, M, []⟩ s =
      ⟨insertAt (M + 1).toNat s tgt, al.add s s, M + 1, [(s, (M + 1).toNat)]⟩ := by
    simp only [reinsertStep, hs, if_pos, hstepeq]
    simp
  have hr : (rightmostBySrc (pre ++ s :: post) tgt al).getD pre.length 0 = M := by
    unfold rightmostBySrc
    rw [rightmostGo_getD al tgt s post pre (-1)]
    rw [← runMax_eq_runRight al tgt hnd hmem pre (-1), ← hMdef]
    have : al.isSrcAligned s = false := by
      simp [Alignment.isSrcAligned, hunal]
    simp [stepRight, this]
  refine ⟨(M + 1).toNat, ?_, ?_, ?_⟩
  · unfold reinsertSegments
    rw [hfold, hstep]
    rcases fold_log_extend post
      ⟨insertAt (M + 1).toNat s tgt, al.add s s, M + 1, [(s, (M + 1).toNat)]⟩ with ⟨ex, hex⟩
    rw [hex]
    simp
  · rw [hr]
    rw [Int.toNat_of_nonneg (by omega)]
  · intro hlt
    rw [hr] at hlt ⊢
    rw [Int.toNat_of_nonneg (by omega)]
    omega

/-- Witness for C5: source `a <x/> b` aligned `a↔a`, `b↔b` (target `a _ b`):
the placeholder is the first (and only) reinsertion, at position
`rightmost_old[1] + 1 = 1`. -/
theorem c5_first_reinsertion_witness :
    ∃ j : Nat,
      (reinsertSegments
          [⟨0, .text, ['a']⟩, ⟨1, .tag ['x'], ['<', 'x', '/', '>']⟩, ⟨2, .text, ['b']⟩]
          [⟨3, .text, ['a']⟩, ⟨4, .whitespace, [' ']⟩, ⟨5, .text, ['b']⟩]
          ((Alignment.empty.add ⟨0, .text, ['a']⟩ ⟨3, .text, ['a']⟩).add
            ⟨2, .text, ['b']⟩ ⟨5, .text, ['b']⟩)).log.head? =
        some (⟨1, .tag ['x'], ['<', 'x', '/', '>']⟩, j) ∧
      (j : Int) = (rightmostBySrc
          [⟨0, .text, ['a']⟩, ⟨1, .tag ['x'], ['<', 'x', '/', '>']⟩, ⟨2, .text, ['b']⟩]
          [⟨3, .text, ['a']⟩, ⟨4, .whitespace, [' ']⟩, ⟨5, .text, ['b']⟩]
          ((Alignment.empty.add ⟨0, .text, ['a']⟩ ⟨3, .text, ['a']⟩).add
            ⟨2, .text, ['b']⟩ ⟨5, .text, ['b']⟩)).getD 1 0 + 1 ∧
      ((rightmostBySrc
          [⟨0, .text, ['a']⟩, ⟨1, .tag ['x'], ['<', 'x', '/', '>']⟩, ⟨2, .text, ['b']⟩]
          [⟨3, .text, ['a']⟩, ⟨4, .whitespace, [' ']⟩, ⟨5, .text, ['b']⟩]
          ((Alignment.empty.add ⟨0, .text, ['a']⟩ ⟨3, .text, ['a']⟩).add
            ⟨2, .text, ['b']⟩ ⟨5, .text, ['b']⟩)).getD 1 0 <
        (leftmostBySrc
          [⟨0, .text, ['a']⟩, ⟨1, .tag ['x'], ['<', 'x', '/', '>']⟩, ⟨2, .text, ['b']⟩]
          [⟨3, .text, ['a']⟩, ⟨4, .whitespace, [' ']⟩, ⟨5, .text, ['b']⟩]
          ((Alignment.empty.add ⟨0, .text, ['a']⟩ ⟨3, .text, ['a']⟩).add
            ⟨2, .text, ['b']⟩ ⟨5, .text, ['b']⟩)).getD 1 0 →
        (rightmostBySrc
          [⟨0, .text, ['a']⟩, ⟨1, .tag ['x'], ['<', 'x', '/', '>']⟩, ⟨2, .text, ['b']⟩]
          [⟨3, .text, ['a']⟩, ⟨4, .whitespace, [' ']⟩, ⟨5, .text, ['b']⟩]
          ((Alignment.empty.add ⟨0, .text, ['a']⟩ ⟨3, .text, ['a']⟩).add
            ⟨2, .text, ['b']⟩ ⟨5, .text, ['b']⟩)).getD 1 0 ≤ (j : Int) ∧
        (j : Int) ≤ (leftmostBySrc
          [⟨0, .text, ['a']⟩, ⟨1, .tag ['x'], ['<', 'x', '/', '>']⟩, ⟨2, .text, ['b']⟩]
          [⟨3, .text, ['a']⟩, ⟨4, .whitespace, [' ']⟩, ⟨5, .text, ['b']⟩]
          ((Alignment.empty.add ⟨0, .text, ['a']⟩ ⟨3, .text, ['a']⟩).add
            ⟨2, .text, ['b']⟩ ⟨5, .text, ['b']⟩)).getD 1 0) :=
  c5_first_reinsertion _ _ [⟨0, .text, ['a']⟩] [⟨2, .text, ['b']⟩]
    ⟨1, .tag ['x'], ['<', 'x', '/', '>']⟩ _ rfl (by decide) (by decide)
    (by decide) (by decide)

/-- C5 counterexample: the claim says the reinserted segment receives target
index `leftmost_old[i]`; in the witness scenario the placeholder at source
index 1 is inserted at position 1, while `leftmost_old[1] = 2`. -/
theorem c5_not_leftmost :
    (reinsertSegments
        [⟨0, .text, ['a']⟩, ⟨1, .tag ['x'], ['<', 'x', '/', '>']⟩, ⟨2, .text, ['b']⟩]
        [⟨3, .text, ['a']⟩, ⟨4, .whitespace, [' ']⟩, ⟨5, .text, ['b']⟩]
        ((Alignment.empty.add ⟨0, .text, ['a']⟩ ⟨3, .text, ['a']⟩).add
          ⟨2, .text, ['b']⟩ ⟨5, .text, ['b']⟩)).log.head? =
      some (⟨1, .tag ['x'], ['<', 'x', '/', '>']⟩, 1) ∧
    (leftmostBySrc
        [⟨0, .text, ['a']⟩, ⟨1, .tag ['x'], ['<', 'x', '/', '>']⟩, ⟨2, .text, ['b']⟩]
        [⟨3, .text, ['a']⟩, ⟨4, .whitespace, [' ']⟩, ⟨5, .text, ['b']⟩]
        ((Alignment.empty.add ⟨0, .text, ['a']⟩ ⟨3, .text, ['a']⟩).add
          ⟨2, .text, ['b']⟩ ⟨5, .text, ['b']⟩)).getD 1 0 = 2 := by
  constructor
  · decide
  · decide

/-!  ### The walking phase of `TagReinserter.reinsert_tags` (translate_markup.py)

Lines 546–591: after asserting equal newline counts on the two sides (the
line-boundary lists), the walk tracks a stack of open `PairedTagSegment`
source indices, recording `unique_opening_tags`, `unique_closing_tags` and
`tag_to_tgt_indices`.  A `"\n"` segment with a non-empty stack raises
`ValueError` (the `ErrTagSpansNewline` kind); `tag_stack.pop()` on an empty
stack raises `IndexError` and a non-empty stack at the end raises
`ValueError` — both of the `ErrMalformedTagNesting` kind (the spec's error
kinds are abstract, not exception types).  This file embeds the walk; the
subsequent insertion phase has further failure modes, so only the
"completes without error *only if*" direction of the claim transfers to the
whole function. -/

inductive TagErr where
  | newlineMismatch : TagErr
  | spansNewline : TagErr
  | malformedNesting : TagErr
deriving DecidableEq

/-- `isinstance(seg, PairedTagSegment)` with its `opening_tag` flag. -/
def pairedFlag (s : Segment) : Option Bool :=
  match s.kind with
  | .pairedTag _ op => some op
  | _ => none

/-- The index-based `Alignment.get_src` of translate_markup.py. -/
def getSrcIdx (al : List (Nat × Nat)) (i : Nat) : List Nat :=
  (al.filter (fun p => p.1 = i)).map Prod.snd

/-- Set-insertion into a `tag_to_tgt_indices` entry. -/
def addIdxOnce (l : List Nat) (x : Nat) : List Nat :=
  if x ∈ l then l else l ++ [x]

/-- The walk of `reinsert_tags`: source index `i`, remaining segments, the
tag stack (head = top), the `unique_opening_tags` / `unique_closing_tags`
association lists and the `tag_to_tgt_indices` map. -/
def tagWalkGo (al : List (Nat × Nat)) :
    Nat → List Segment → List Nat → List (Nat × Segment) →
    List (Nat × (Nat × Segment)) → (Nat → List Nat) →
    Except TagErr ((Nat → List Nat) × List (Nat × Segment) × List (Nat × (Nat × Segment)))
  | _, [], stack, opens, closes, tagTgt =>
    if stack.isEmpty then .ok (tagTgt, opens, closes) else .error .malformedNesting
  | i, seg :: rest, stack, opens, closes, tagTgt =>
    if seg.surface = ['\n'] ∧ ¬ stack.isEmpty = true then .error .spansNewline
    else
      match pairedFlag seg with
      | some true =>
        tagWalkGo al (i + 1) rest (i :: stack) (opens ++ [(i, seg)]) closes tagTgt
      | some false =>
        match stack with
        | [] => .error .malformedNesting
        | top :: stack' =>
          tagWalkGo al (i + 1) rest stack' opens (closes ++ [(top, (i, seg))]) tagTgt
      | none =>
        tagWalkGo al (i + 1) rest stack opens closes
          (if (getSrcIdx al i).isEmpty then tagTgt
           else fun k => if k ∈ stack then (getSrcIdx al i).foldl addIdxOnce (tagTgt k)
                         else tagTgt k)

def countNl (l : List Segment) : Nat :=
  l.countP (fun s => s.surface = ['\n'])

/-- The walking phase of `TagReinserter.reinsert_tags`: the line-boundary
count assert, then the walk with the final stack check. -/
def reinsertTagsWalk (src tgt : List Segment) (al : List (Nat × Nat)) :
    Except TagErr ((Nat → List Nat) × List (Nat × Segment) × List (Nat × (Nat × Segment))) :=
  if countNl src = countNl tgt then tagWalkGo al 0 src [] [] [] (fun _ => [])
  else .error .newlineMismatch

/-- The nesting contribution of one segment: `+1` for an opening paired tag,
`-1` for a closing one, `0` otherwise. -/
def pdelta (s : Segment) : Int :=
  match pairedFlag s with
  | some true => 1
  | some false => -1
  | none => 0

/-- Declarative well-formedness at nesting depth `d`: paired tags nest
properly (never a closing at depth 0, depth 0 at the end) and no newline
occurs at a positive depth. -/
def NestOkD : List Segment → Int → Prop
  | [], d => d = 0
  | s :: rest, d =>
    ¬(s.surface = ['\n'] ∧ d ≠ 0) ∧ ¬(pairedFlag s = some false ∧ d = 0) ∧
      NestOkD rest (d + pdelta s)

/-- Declaratively: the first offense in the walk is a newline at positive
depth. -/
def SpanErrD : List Segment → Int → Prop
  | [], _ => False
  | s :: rest, d =>
    (s.surface = ['\n'] ∧ d ≠ 0) ∨
      (¬(s.surface = ['\n'] ∧ d ≠ 0) ∧ ¬(pairedFlag s = some false ∧ d = 0) ∧
        SpanErrD rest (d + pdelta s))

/-- Declaratively: the first offense is a closing paired tag at depth 0
(un-matched closing), or the walk is offense-free but ends at positive depth
(un-closed opening). -/
def CloseErrD : List Segment → Int → Prop
  | [], d => d ≠ 0
  | s :: rest, d =>
    ¬(s.surface = ['\n'] ∧ d ≠ 0) ∧
      ((pairedFlag s = some false ∧ d = 0) ∨
        (¬(pairedFlag s = some false ∧ d = 0) ∧ CloseErrD rest (d + pdelta s)))

theorem tagWalkGo_ok_iff (al : List (Nat × Nat)) :
    ∀ (rest : List Segment) (i : Nat) (stack : List Nat)
      (opens : List (Nat × Segment)) (closes : List (Nat × (Nat × Segment)))
      (tagTgt : Nat → List Nat),
      (∃ out, tagWalkGo al i rest stack opens closes tagTgt = .ok out) ↔
        NestOkD rest (stack.length : Int) := by
  intro rest
  induction rest with
  | nil =>
    intro i stack opens closes tagTgt
    simp only [tagWalkGo, NestOkD]
    by_cases hs : stack.isEmpty
    · rw [List.isEmpty_iff] at hs
      subst hs
      simp
    · have : stack.length ≠ 0 := by
        intro hc
        rw [List.length_eq_zero] at hc
        subst hc
        exact hs rfl
      simp only [if_neg hs]
      constructor
      · rintro ⟨out, hout⟩; cases hout
      · intro h
        exfalso
        apply this
        exact_mod_cast h
  | cons seg rest ih =>
    intro i stack opens closes tagTgt
    simp only [tagWalkGo, NestOkD]
    by_cases hnl : seg.surface = ['\n'] ∧ ¬ stack.isEmpty = true
    · rw [if_pos hnl]
      have hd : ¬ ¬(seg.surface = ['\n'] ∧ (stack.length : Int) ≠ 0) := by
        intro hc
        apply hc
        refine ⟨hnl.1, ?_⟩
        intro hz
        have : stack.length = 0 := by exact_mod_cast hz
        rw [List.length_eq_zero] at this
        subst this
        exact hnl.2 rfl
      constructor
      · rintro ⟨out, hout⟩; cases hout
      · intro h; exact absurd h.1 hd
    · rw [if_neg hnl]
      have hok : ¬(seg.surface = ['\n'] ∧ (stack.length : Int) ≠ 0) := by
        intro hc
        apply hnl
        refine ⟨hc.1, ?_⟩
        intro he
        rw [List.isEmpty_iff] at he
        subst he
        simp at hc
      cases hp : pairedFlag seg with
      | some b =>
        cases b with
        | true =>
          rw [ih (i + 1) (i :: stack) (opens ++ [(i, seg)]) closes tagTgt]
          have hpd : pdelta seg = 1 := by simp [pdelta, hp]
          simp only [List.length_cons, hpd]
          rw [show ((stack.length + 1 : Nat) : Int) = (stack.length : Int) + 1 by
            push_cast; ring]
          constructor
          · intro h
            exact ⟨hok, by simp, h⟩
          · rintro ⟨_, _, h⟩
            exact h
        | false =>
          cases stack with
          | nil =>
            constructor
            · rintro ⟨out, hout⟩; cases hout
            · rintro ⟨_, h2, _⟩
              exact absurd ⟨rfl, by simp⟩ h2
          | cons top stack' =>
            rw [ih (i + 1) stack' opens (closes ++ [(top, (i, seg))]) tagTgt]
            have hpd : pdelta seg = -1 := by simp [pdelta, hp]
            simp only [List.length_cons, hpd]
            rw [show ((stack'.length + 1 : Nat) : Int) + (-1) = (stack'.length : Int) by
              push_cast; ring]
            constructor
            · intro h
              refine ⟨hok, ?_, h⟩
              rintro ⟨-, hc⟩
              push_cast at hc
              omega
            · rintro ⟨_, _, h⟩
              exact h
      | none =>
        rw [ih (i + 1) stack opens closes _]
        have hpd : pdelta seg = 0 := by simp [pdelta, hp]
        simp only [hpd, add_zero]
        constructor
        · intro h
          exact ⟨hok, by simp, h⟩
        · rintro ⟨_, _, h⟩
          exact h

theorem tagWalkGo_span_iff (al : List (Nat × Nat)) :
    ∀ (rest : List Segment) (i : Nat) (stack : List Nat)
      (opens : List (Nat × Segment)) (closes : List (Nat × (Nat × Segment)))
      (tagTgt : Nat → List Nat),
      tagWalkGo al i rest stack opens closes tagTgt = .error .spansNewline ↔
        SpanErrD rest (stack.length : Int) := by
  intro rest
  induction rest with
  | nil =>
    intro i stack opens closes tagTgt
    simp only [tagWalkGo, SpanErrD]
    by_cases hs : stack.isEmpty <;> simp [hs]
  | cons seg rest ih =>
    intro i stack opens closes tagTgt
    simp only [tagWalkGo, SpanErrD]
    by_cases hnl : seg.surface = ['\n'] ∧ ¬ stack.isEmpty = true
    · rw [if_pos hnl]
      have : seg.surface = ['\n'] ∧ (stack.length : Int) ≠ 0 := by
        refine ⟨hnl.1, ?_⟩
        intro hz
        have : stack.length = 0 := by exact_mod_cast hz
        rw [List.length_eq_zero] at this
        subst this
        exact hnl.2 rfl
      simp [this]
    · rw [if_neg hnl]
      have hok : ¬(seg.surface = ['\n'] ∧ (stack.length : Int) ≠ 0) := by
        intro hc
        apply hnl
        refine ⟨hc.1, ?_⟩
        intro he
        rw [List.isEmpty_iff] at he
        subst he
        simp at hc
      cases hp : pairedFlag seg with
      | some b =>
        cases b with
        | true =>
          rw [ih (i + 1) (i :: stack) (opens ++ [(i, seg)]) closes tagTgt]
          have hpd : pdelta seg = 1 := by simp [pdelta, hp]
          simp only [List.length_cons, hpd]
          rw [show ((stack.length + 1 : Nat) : Int) = (stack.length : Int) + 1 by
            push_cast; ring]
          constructor
          · intro h
            exact Or.inr ⟨hok, by simp, h⟩
          · rintro (hc | ⟨_, _, h⟩)
            · exact absurd hc hok
            · exact h
        | false =>
          cases stack with
          | nil =>
            constructor
            · intro h; cases h
            · rintro (hc | ⟨_, h2, _⟩)
              · exact absurd hc hok
              · exact absurd ⟨rfl, by simp⟩ h2
          | cons top stack' =>
            rw [ih (i + 1) stack' opens (closes ++ [(top, (i, seg))]) tagTgt]
            have hpd : pdelta seg = -1 := by simp [pdelta, hp]
            simp only [List.length_cons, hpd]
            rw [show ((stack'.length + 1 : Nat) : Int) + (-1) = (stack'.length : Int) by
              push_cast; ring]
            constructor
            · intro h
              refine Or.inr ⟨hok, ?_, h⟩
              rintro ⟨-, hc⟩
              push_cast at hc
              omega
            · rintro (hc | ⟨_, _, h⟩)
              · exact absurd hc hok
              · exact h
      | none =>
        rw [ih (i + 1) stack opens closes _]
        have hpd : pdelta seg = 0 := by simp [pdelta, hp]
        simp only [hpd, add_zero]
        constructor
        · intro h
          exact Or.inr ⟨hok, by simp, h⟩
        · rintro (hc | ⟨_, _, h⟩)
          · exact absurd hc hok
          · exact h

theorem tagWalkGo_close_iff (al : List (Nat × Nat)) :
    ∀ (rest : List Segment) (i : Nat) (stack : List Nat)
      (opens : List (Nat × Segment)) (closes : List (Nat × (Nat × Segment)))
      (tagTgt : Nat → List Nat),
      tagWalkGo al i rest stack opens closes tagTgt = .error .malformedNesting ↔
        CloseErrD rest (stack.length : Int) := by
  intro rest
  induction rest with
  | nil =>
    intro i stack opens closes tagTgt
    simp only [tagWalkGo, CloseErrD]
    by_cases hs : stack.isEmpty
    · rw [List.isEmpty_iff] at hs
      subst hs
      simp
    · have : stack.length ≠ 0 := by
        intro hc
        rw [List.length_eq_zero] at hc
        subst hc
        exact hs rfl
      simp only [if_neg hs]
      constructor
      · intro _
        intro hc
        apply this
        exact_mod_cast hc
      · intro _; trivial
  | cons seg rest ih =>
    intro i stack opens closes tagTgt
    simp only [tagWalkGo, CloseErrD]
    by_cases hnl : seg.surface = ['\n'] ∧ ¬ stack.isEmpty = true
    · rw [if_pos hnl]
      have : seg.surface = ['\n'] ∧ (stack.length : Int) ≠ 0 := by
        refine ⟨hnl.1, ?_⟩
        intro hz
        have : stack.length = 0 := by exact_mod_cast hz
        rw [List.length_eq_zero] at this
        subst this
        exact hnl.2 rfl
      constructor
      · intro h; cases h
      · rintro ⟨h1, -⟩
        exact absurd this h1
    · rw [if_neg hnl]
      have hok : ¬(seg.surface = ['\n'] ∧ (stack.length : Int) ≠ 0) := by
        intro hc
        apply hnl
        refine ⟨hc.1, ?_⟩
        intro he
        rw [List.isEmpty_iff] at he
        subst he
        simp at hc
      cases hp : pairedFlag seg with
      | some b =>
        cases b with
        | true =>
          rw [ih (i + 1) (i :: stack) (opens ++ [(i, seg)]) closes tagTgt]
          have hpd : pdelta seg = 1 := by simp [pdelta, hp]
          simp only [List.length_cons, hpd]
          rw [show ((stack.length + 1 : Nat) : Int) = (stack.length : Int) + 1 by
            push_cast; ring]
          constructor
          · intro h
            exact ⟨hok, Or.inr ⟨by simp, h⟩⟩
          · rintro ⟨_, hc | ⟨_, h⟩⟩
            · exact absurd hc.1 (by simp)
            · exact h
        | false =>
          cases stack with
          | nil =>
            constructor
            · intro _
              exact ⟨hok, Or.inl ⟨rfl, by simp⟩⟩
            · intro _; rfl
          | cons top stack' =>
            rw [ih (i + 1) stack' opens (closes ++ [(top, (i, seg))]) tagTgt]
            have hpd : pdelta seg = -1 := by simp [pdelta, hp]
            simp only [List.length_cons, hpd]
            rw [show ((stack'.length + 1 : Nat) : Int) + (-1) = (stack'.length : Int) by
              push_cast; ring]
            constructor
            · intro h
              refine ⟨hok, Or.inr ⟨?_, h⟩⟩
              rintro ⟨-, hc⟩
              push_cast at hc
              omega
            · rintro ⟨_, hc | ⟨_, h⟩⟩
              · rcases hc with ⟨-, hc2⟩
                push_cast at hc2
                omega
              · exact h
      | none =>
        rw [ih (i + 1) stack opens closes _]
        have hpd : pdelta seg = 0 := by simp [pdelta, hp]
        simp only [hpd, add_zero]
        constructor
        · intro h
          exact ⟨hok, Or.inr ⟨by simp [hp], h⟩⟩
        · rintro ⟨_, hc | ⟨_, h⟩⟩
          · exact absurd hc.1 (by simp)
          · exact h

/-- C7: the walking phase of `reinsert_tags` (after the equal-newline-count
gate) fails with `ErrTagSpansNewline` exactly when the first offense is a
newline at positive nesting depth; fails with `ErrMalformedTagNesting`
exactly when the first offense is a closing paired tag with no matching
opening, or when the walk is offense-free but an opening is never closed;
and completes without error exactly when the paired tags nest properly and
no newline is walked while a tag is open — so the full `reinsert_tags`
completes without error only on such sources. -/
theorem c7_reinsert_tags_walk (src tgt : List Segment) (al : List (Nat × Nat)) :
    ((∃ out, reinsertTagsWalk src tgt al = .ok out) ↔
        countNl src = countNl tgt ∧ NestOkD src 0) ∧
    (reinsertTagsWalk src tgt al = .error .spansNewline ↔
        countNl src = countNl tgt ∧ SpanErrD src 0) ∧
    (reinsertTagsWalk src tgt al = .error .malformedNesting ↔
        countNl src = countNl tgt ∧ CloseErrD src 0) := by
  unfold reinsertTagsWalk
  by_cases hc : countNl src = countNl tgt
  · rw [if_pos hc]
    refine ⟨?_, ?_, ?_⟩
    · rw [show (0 : Int) = (([] : List Nat).length : Int) by simp]
      rw [← tagWalkGo_ok_iff al src 0 [] [] [] (fun _ => [])]
      simp [hc]
    · rw [show (0 : Int) = (([] : List Nat).length : Int) by simp]
      rw [← tagWalkGo_span_iff al src 0 [] [] [] (fun _ => [])]
      simp [hc]
    · rw [show (0 : Int) = (([] : List Nat).length : Int) by simp]
      rw [← tagWalkGo_close_iff al src 0 [] [] [] (fun _ => [])]
      simp [hc]
  · rw [if_neg hc]
    refine ⟨?_, ?_, ?_⟩ <;> simp [hc]

end DocTrans
